/-
Verification development for the Infinibot RBAC-aware retrieval backend.

This file gives a shallow embedding, in Lean 4, of the permission model of
the repository:

* `backend/app/services/document_permission.py`
    (`get_org_domains`, `check_user_group_membership`,
     `get_document_permissions`, `process_permission_entry`,
     `process_granted_entity`)
* `backend/app/services/agent.py`
    (`has_document_access`, `document_search_tool`)
* `backend/app/core/auth.py`
    (`get_current_user`)

Python dynamic values (JSON data, metadata dictionary values) are embedded
as the inductive type `JVal`; Python exceptions are embedded as the `.error`
case of `Except String`; network calls and the global `settings` object are
passed in explicitly as environment records.  Functions keep the names of
the source functions.
-/
import Mathlib

set_option autoImplicit false

namespace Infinibot

/-! ## Python / JSON dynamic values -/

/-- Embedding of Python values as they occur in document metadata and JSON
responses: `None`, booleans, numbers (kept as their JSON lexeme — only
truthiness and `str()` are ever applied to them), strings, lists and dicts. -/
inductive JVal where
  | null : JVal
  | bool : Bool → JVal
  | num : String → JVal
  | str : String → JVal
  | arr : List JVal → JVal
  | obj : List (String × JVal) → JVal

/-- The single-quote character. -/
def squoteChar : Char := Char.ofNat 39

/-- The double-quote character. -/
def dquoteChar : Char := Char.ofNat 34

/-- Opening-brace character. -/
def lbraceChar : Char := Char.ofNat 123

/-- Closing-brace character. -/
def rbraceChar : Char := Char.ofNat 125

mutual

/-- Decidable equality on `JVal` (needed so concrete counterexamples can be
settled by `decide`). -/
def JVal.deq : (a b : JVal) → Decidable (a = b)
  | .null, .null => isTrue rfl
  | .bool a, .bool b =>
    match decEq a b with
    | isTrue h => isTrue (by rw [h])
    | isFalse h => isFalse (by intro hh; cases hh; exact h rfl)
  | .num a, .num b =>
    match decEq a b with
    | isTrue h => isTrue (by rw [h])
    | isFalse h => isFalse (by intro hh; cases hh; exact h rfl)
  | .str a, .str b =>
    match decEq a b with
    | isTrue h => isTrue (by rw [h])
    | isFalse h => isFalse (by intro hh; cases hh; exact h rfl)
  | .arr a, .arr b =>
    match JVal.deqList a b with
    | isTrue h => isTrue (by rw [h])
    | isFalse h => isFalse (by intro hh; cases hh; exact h rfl)
  | .obj a, .obj b =>
    match JVal.deqObj a b with
    | isTrue h => isTrue (by rw [h])
    | isFalse h => isFalse (by intro hh; cases hh; exact h rfl)
  | .null, .bool _ | .null, .num _ | .null, .str _ | .null, .arr _ | .null, .obj _
  | .bool _, .null | .bool _, .num _ | .bool _, .str _ | .bool _, .arr _ | .bool _, .obj _
  | .num _, .null | .num _, .bool _ | .num _, .str _ | .num _, .arr _ | .num _, .obj _
  | .str _, .null | .str _, .bool _ | .str _, .num _ | .str _, .arr _ | .str _, .obj _
  | .arr _, .null | .arr _, .bool _ | .arr _, .num _ | .arr _, .str _ | .arr _, .obj _
  | .obj _, .null | .obj _, .bool _ | .obj _, .num _ | .obj _, .str _ | .obj _, .arr _ =>
    isFalse (by intro h; exact absurd h (by simp))

def JVal.deqList : (a b : List JVal) → Decidable (a = b)
  | [], [] => isTrue rfl
  | [], _ :: _ => isFalse (by simp)
  | _ :: _, [] => isFalse (by simp)
  | x :: xs, y :: ys =>
    match JVal.deq x y with
    | isTrue h1 =>
      match JVal.deqList xs ys with
      | isTrue h2 => isTrue (by rw [h1, h2])
      | isFalse h2 => isFalse (by intro hh; cases hh; exact h2 rfl)
    | isFalse h1 => isFalse (by intro hh; cases hh; exact h1 rfl)

def JVal.deqObj : (a b : List (String × JVal)) → Decidable (a = b)
  | [], [] => isTrue rfl
  | [], _ :: _ => isFalse (by simp)
  | _ :: _, [] => isFalse (by simp)
  | (k1, v1) :: xs, (k2, v2) :: ys =>
    match decEq k1 k2 with
    | isTrue hk =>
      match JVal.deq v1 v2 with
      | isTrue h1 =>
        match JVal.deqObj xs ys with
        | isTrue h2 => isTrue (by rw [hk, h1, h2])
        | isFalse h2 => isFalse (by intro hh; cases hh; exact h2 rfl)
      | isFalse h1 => isFalse (by intro hh; cases hh; exact h1 rfl)
    | isFalse hk => isFalse (by intro hh; cases hh; exact hk rfl)

end

instance : DecidableEq JVal := JVal.deq

/-- Python truthiness of a numeric JSON lexeme: every number is truthy
except the zero forms (`0`, `-0`, `0.0`, `0e5`, …). -/
def numLexemeIsZero (s : String) : Bool :=
  let core := if s.data.head? = some (Char.ofNat 45) then s.data.tail else s.data
  let mantissa := core.takeWhile (fun c => c ≠ 'e' ∧ c ≠ 'E')
  mantissa.all (fun c => c = '0' ∨ c = '.') && mantissa.any (fun c => c = '0')

/-- Python truthiness (`bool(v)`) of an embedded dynamic value. -/
def pyTruthy : JVal → Bool
  | .null => false
  | .bool b => b
  | .num s => !numLexemeIsZero s
  | .str s => !(s == "")
  | .arr l => !l.isEmpty
  | .obj l => !l.isEmpty

/-! ## `json.loads`

A faithful executable model of Python's `json.loads` restricted to what the
repository feeds it (arbitrary JSON text).  Strings are double-quoted with
the standard escapes and reject raw control characters (strict mode);
numbers follow the JSON grammar and are kept as lexemes; `NaN`, `Infinity`
and `-Infinity` are accepted as Python's parser does.  The character-level
loops are structurally recursive; the value-level recursion is fueled, with
fuel `input length + 1` at top level (each recursive step consumes at least
one input character, so the fuel never runs out on real input). -/

/-- JSON whitespace. -/
def jIsWs (c : Char) : Bool :=
  c = ' ' ∨ c = Char.ofNat 9 ∨ c = Char.ofNat 10 ∨ c = Char.ofNat 13

/-- Skip JSON whitespace. -/
def jSkipWs : List Char → List Char
  | [] => []
  | c :: cs => if jIsWs c then jSkipWs cs else c :: cs

/-- Hexadecimal digit value. -/
def hexVal (c : Char) : Option Nat :=
  if '0' ≤ c ∧ c ≤ '9' then some (c.toNat - 48)
  else if 'a' ≤ c ∧ c ≤ 'f' then some (c.toNat - 87)
  else if 'A' ≤ c ∧ c ≤ 'F' then some (c.toNat - 55)
  else none

/-- Value of a four-hex-digit escape. -/
def hex4 (a b c d : Char) : Option Nat := do
  let va ← hexVal a
  let vb ← hexVal b
  let vc ← hexVal c
  let vd ← hexVal d
  return ((va * 16 + vb) * 16 + vc) * 16 + vd

/-- Single-character escape codes (`\" \\ \/ \b \f \n \r \t`). -/
def jEscChar (c : Char) : Option Char :=
  if c = dquoteChar then some dquoteChar
  else if c = Char.ofNat 92 then some (Char.ofNat 92)
  else if c = Char.ofNat 47 then some (Char.ofNat 47)
  else if c = 'b' then some (Char.ofNat 8)
  else if c = 'f' then some (Char.ofNat 12)
  else if c = 'n' then some (Char.ofNat 10)
  else if c = 'r' then some (Char.ofNat 13)
  else if c = 't' then some (Char.ofNat 9)
  else none

/-- Prepend a decoded character to a string-parse result. -/
def jStrCons (c : Char) (r : Option (List Char × List Char)) :
    Option (List Char × List Char) :=
  r.map (fun p => (c :: p.1, p.2))

/-- Parse the body of a JSON string after the opening quote; returns the
decoded characters and the rest of the input after the closing quote.
Surrogate pairs in `\u` escapes are combined; a lone surrogate is rejected
(Python tolerates lone surrogates — unreachable for the data in scope).
Fueled: each step consumes at least one input character, so the wrapper's
`length + 1` fuel never runs out. -/
def jParseStrF : Nat → List Char → Option (List Char × List Char)
  | 0, _ => none
  | _ + 1, [] => none
  | fuel + 1, c :: cs =>
    if c = dquoteChar then some ([], cs)
    else if c = Char.ofNat 92 then
      match cs with
      | [] => none
      | e :: cs2 =>
        if e = 'u' then
          match cs2 with
          | a :: b :: c3 :: d :: cs3 =>
            match hex4 a b c3 d with
            | none => none
            | some n =>
              if 0xD800 ≤ n ∧ n < 0xDC00 then
                -- high surrogate: must be followed by a low surrogate escape
                match cs3 with
                | e2 :: u2 :: a2 :: b2 :: c4 :: d2 :: cs4 =>
                  if e2 = Char.ofNat 92 ∧ u2 = 'u' then
                    match hex4 a2 b2 c4 d2 with
                    | some m =>
                      if 0xDC00 ≤ m ∧ m < 0xE000 then
                        jStrCons (Char.ofNat (0x10000 + (n - 0xD800) * 0x400 + (m - 0xDC00)))
                          (jParseStrF fuel cs4)
                      else none
                    | none => none
                  else none
                | _ => none
              else if 0xDC00 ≤ n ∧ n < 0xE000 then none
              else jStrCons (Char.ofNat n) (jParseStrF fuel cs3)
          | _ => none
        else
          match jEscChar e with
          | none => none
          | some d => jStrCons d (jParseStrF fuel cs2)
    else if c.toNat < 32 then none
    else jStrCons c (jParseStrF fuel cs)

/-- The string-body parser with its always-sufficient fuel. -/
def jParseStr (cs : List Char) : Option (List Char × List Char) :=
  jParseStrF (cs.length + 1) cs

/-- Lex the digits `[0-9]*` prefix. -/
def jTakeDigits : List Char → (List Char × List Char)
  | [] => ([], [])
  | c :: cs =>
    if '0' ≤ c ∧ c ≤ '9' then
      let (ds, rest) := jTakeDigits cs
      (c :: ds, rest)
    else ([], c :: cs)

/-- Lex a JSON number starting at the input (which is known to start with a
digit or a minus sign); follows Python's `NUMBER_RE`:
`-?(0|[1-9][0-9]*)(\.[0-9]+)?([eE][-+]?[0-9]+)?` (no leading zeros). -/
def jLexNumber (input : List Char) : Option (List Char × List Char) :=
  let (neg, afterSign) :=
    match input with
    | c :: cs => if c = Char.ofNat 45 then ([c], cs) else ([], input)
    | [] => ([], input)
  match afterSign with
  | [] => none
  | c :: cs =>
    if c = '0' then
      let (frac, rest) := jLexFrac cs
      some (neg ++ [c] ++ frac, rest)
    else if '1' ≤ c ∧ c ≤ '9' then
      let (ds, rest1) := jTakeDigits cs
      let (frac, rest) := jLexFrac rest1
      some (neg ++ [c] ++ ds ++ frac, rest)
    else none
where
  /-- Optional fraction and exponent parts. -/
  jLexFrac (cs : List Char) : (List Char × List Char) :=
    let (fracPart, rest1) :=
      match cs with
      | c :: cs1 =>
        if c = Char.ofNat 46 then
          match jTakeDigits cs1 with
          | ([], _) => ([], cs)         -- `.` with no digit: not part of the number
          | (ds, rest) => (c :: ds, rest)
        else ([], cs)
      | [] => ([], cs)
    let (expPart, rest2) :=
      match rest1 with
      | c :: cs1 =>
        if c = 'e' ∨ c = 'E' then
          let (sign, cs2) :=
            match cs1 with
            | s :: cs3 => if s = Char.ofNat 43 ∨ s = Char.ofNat 45 then ([s], cs3) else ([], cs1)
            | [] => ([], cs1)
          match jTakeDigits cs2 with
          | ([], _) => ([], rest1)      -- `e` with no digit: not part of the number
          | (ds, rest) => (c :: sign ++ ds, rest)
        else ([], rest1)
      | [] => ([], rest1)
    (fracPart ++ expPart, rest2)

/-- Check that the input starts with the given keyword, returning the rest. -/
def jExpect : List Char → List Char → Option (List Char)
  | [], input => some input
  | k :: ks, c :: cs => if c = k then jExpect ks cs else none
  | _ :: _, [] => none

mutual

/-- Parse one JSON value (after skipping leading whitespace). -/
def jParseVal : Nat → List Char → Option (JVal × List Char)
  | 0, _ => none
  | fuel + 1, input =>
    match jSkipWs input with
    | [] => none
    | c :: cs =>
      if c = dquoteChar then
        match jParseStr cs with
        | some (body, rest) => some (.str (String.mk body), rest)
        | none => none
      else if c = '[' then jParseArr fuel cs
      else if c = lbraceChar then jParseObj fuel cs
      else if c = 't' then (jExpect ['r', 'u', 'e'] cs).map (fun r => (.bool true, r))
      else if c = 'f' then (jExpect ['a', 'l', 's', 'e'] cs).map (fun r => (.bool false, r))
      else if c = 'n' then (jExpect ['u', 'l', 'l'] cs).map (fun r => (.null, r))
      else if c = 'N' then (jExpect ['a', 'N'] cs).map (fun r => (.num "NaN", r))
      else if c = 'I' then
        (jExpect ['n', 'f', 'i', 'n', 'i', 't', 'y'] cs).map (fun r => (.num "Infinity", r))
      else if c = Char.ofNat 45 ∧ cs.take 8 = ['I', 'n', 'f', 'i', 'n', 'i', 't', 'y'] then
        some (.num "-Infinity", cs.drop 8)
      else if c = Char.ofNat 45 ∨ ('0' ≤ c ∧ c ≤ '9') then
        match jLexNumber (c :: cs) with
        | some (lex, rest) => some (.num (String.mk lex), rest)
        | none => none
      else none

/-- Parse an array after the opening bracket. -/
def jParseArr : Nat → List Char → Option (JVal × List Char)
  | 0, _ => none
  | fuel + 1, input =>
    match jSkipWs input with
    | c :: cs =>
      if c = ']' then some (.arr [], cs)
      else
        match jParseItems fuel (c :: cs) with
        | some (items, rest) => some (.arr items, rest)
        | none => none
    | [] => none

/-- Parse the comma-separated items of a non-empty array, including the
closing bracket. -/
def jParseItems : Nat → List Char → Option (List JVal × List Char)
  | 0, _ => none
  | fuel + 1, input =>
    match jParseVal fuel input with
    | none => none
    | some (v, rest) =>
      match jSkipWs rest with
      | c :: cs =>
        if c = ',' then
          match jParseItems fuel cs with
          | some (items, rest2) => some (v :: items, rest2)
          | none => none
        else if c = ']' then some ([v], cs)
        else none
      | [] => none

/-- Parse an object after the opening brace. -/
def jParseObj : Nat → List Char → Option (JVal × List Char)
  | 0, _ => none
  | fuel + 1, input =>
    match jSkipWs input with
    | c :: cs =>
      if c = rbraceChar then some (.obj [], cs)
      else
        match jParseMembers fuel (c :: cs) with
        | some (mems, rest) => some (.obj mems, rest)
        | none => none
    | [] => none

/-- Parse the comma-separated members of a non-empty object, including the
closing brace. -/
def jParseMembers : Nat → List Char → Option (List (String × JVal) × List Char)
  | 0, _ => none
  | fuel + 1, input =>
    match jSkipWs input with
    | c :: cs =>
      if c = dquoteChar then
        match jParseStr cs with
        | none => none
        | some (key, rest1) =>
          match jSkipWs rest1 with
          | c2 :: cs2 =>
            if c2 = ':' then
              match jParseVal fuel cs2 with
              | none => none
              | some (v, rest2) =>
                match jSkipWs rest2 with
                | c3 :: cs3 =>
                  if c3 = ',' then
                    match jParseMembers fuel cs3 with
                    | some (mems, rest3) => some ((String.mk key, v) :: mems, rest3)
                    | none => none
                  else if c3 = rbraceChar then some ([(String.mk key, v)], cs3)
                  else none
                | [] => none
            else none
          | [] => none
      else none
    | [] => none

end

/-- Model of Python's `json.loads`: parse one value with surrounding
whitespace; any trailing non-whitespace raises (here: `none`). -/
def jsonLoads (s : String) : Option JVal :=
  match jParseVal (s.data.length + 1) s.data with
  | some (v, rest) => if jSkipWs rest = [] then some v else none
  | none => none

/-! ## Python string operations

Executable models of the `str` methods the permission code uses.  `lower`
is modelled on ASCII (Lean's `Char.toLower`); the repository only compares
email addresses and domain names, which are ASCII. -/

/-- `str.lower()` (ASCII). -/
def pyLower (s : String) : String := String.mk (s.data.map Char.toLower)

/-- `str.strip()`: drop leading and trailing whitespace. -/
def pyStrip (s : String) : String :=
  String.mk ((s.data.dropWhile Char.isWhitespace).reverse.dropWhile Char.isWhitespace |>.reverse)

/-- `str.split(sep)` for a one-character separator: split at every
occurrence, producing `count + 1` parts. -/
def pySplitChar (sep : Char) (s : String) : List String :=
  go s.data []
where
  go : List Char → List Char → List String
    | [], acc => [String.mk acc.reverse]
    | c :: cs, acc => if c = sep then String.mk acc.reverse :: go cs [] else go cs (c :: acc)

/-- Prefix test on character lists. -/
def charsIsPrefix : List Char → List Char → Bool
  | [], _ => true
  | _ :: _, [] => false
  | n :: ns, h :: hs => n = h && charsIsPrefix ns hs

/-- Infix (contiguous substring) test on character lists. -/
def charsIsInfix (needle : List Char) : List Char → Bool
  | [] => needle.isEmpty
  | h :: hs => charsIsPrefix needle (h :: hs) || charsIsInfix needle hs

/-- Substring containment, Python's `needle in haystack` on strings. -/
def pyStrContains (haystack needle : String) : Bool :=
  charsIsInfix needle.data haystack.data

/-- `s.replace("'", "\"")` as the permission code applies it: the pattern is
a single character, so the replacement is a character map. -/
def pyNormalizeQuotes (s : String) : String :=
  String.mk (s.data.map (fun c => if c = squoteChar then dquoteChar else c))

/-- The email domain as the permission code computes it:
`user_email.split("@")[1].lower() if "@" in user_email else ""`. -/
def userDomainOf (user_email : String) : String :=
  if pyStrContains user_email "@" then pyLower ((pySplitChar '@' user_email).getD 1 "") else ""

/-! ## Configuration -/

/-- The deployment-level settings the permission code reads
(`app/core/config.py`). -/
structure Settings where
  ORG_DOMAINS : String
  DEV_MODE : Bool

/-- `get_org_domains` (document_permission.py:9-12): split the configured
comma-separated string, keep the entries that are non-empty after
stripping, stripped and lowercased. -/
def get_org_domains (settings : Settings) : List String :=
  (pySplitChar ',' settings.ORG_DOMAINS).filterMap (fun d =>
    let t := pyStrip d
    if t = "" then none else some (pyLower t))

/-! ## Dynamic-value operations used by the resolver -/

/-- `dict.get(key, default)`: on a dict, first binding of the key or the
default; on any other value, `AttributeError` (an exception). -/
def pyDictGet (v : JVal) (k : String) (dflt : JVal) : Except String JVal :=
  match v with
  | .obj kvs => .ok (((kvs.find? (fun kv => kv.1 = k)).map Prod.snd).getD dflt)
  | _ => .error "AttributeError: get"

/-- Python iteration (`for x in v`): lists yield their elements, strings
their characters (as one-character strings), dicts their keys; numbers,
booleans and `None` raise `TypeError`. -/
def pyIterElems : JVal → Except String (List JVal)
  | .arr l => .ok l
  | .str s => .ok (s.data.map (fun c => .str (String.singleton c)))
  | .obj kvs => .ok (kvs.map (fun kv => .str kv.1))
  | _ => .error "TypeError: not iterable"

/-- `v.lower()`: only strings have it. -/
def pyLowerVal : JVal → Except String String
  | .str s => .ok (pyLower s)
  | _ => .error "AttributeError: lower"

/-- Python's `needle in v` for a string needle: substring test on strings,
element equality on lists, key containment on dicts, `TypeError` otherwise. -/
def pyInOp (needle : String) (v : JVal) : Except String Bool :=
  match v with
  | .str s => .ok (pyStrContains s needle)
  | .arr l => .ok (l.any (fun x => x = .str needle))
  | .obj kvs => .ok (kvs.any (fun kv => kv.1 = needle))
  | _ => .error "TypeError: argument of type is not iterable"

/-- `len(v)`: strings, lists and dicts have a length; `TypeError` otherwise. -/
def pyLen : JVal → Except String Nat
  | .str s => .ok s.length
  | .arr l => .ok l.length
  | .obj kvs => .ok kvs.length
  | _ => .error "TypeError: len"

/-- `v.startswith(p)`: only strings have it. -/
def pyStartswith (v : JVal) (p : String) : Except String Bool :=
  match v with
  | .str s => .ok (p.isPrefixOf s)
  | _ => .error "AttributeError: startswith"

/-! ## Group Membership Resolver (`check_user_group_membership`) -/

/-- An HTTP response as the resolver observes it: a status code and a
`json()` body that may itself raise. -/
structure HttpResp where
  status_code : Nat
  jsonBody : Except String JVal

/-- The external effects `check_user_group_membership` performs, passed in
explicitly: the SharePoint token acquisition and the Graph
`/users/{email}/memberOf` call.  `.error` models the call raising. -/
structure DirectoryEnv where
  get_access_token : Except String String
  memberOfResponse : Except String HttpResp

/-- The fixed site-local group names of the fast path
(document_permission.py:23). -/
def sharepointSiteGroups : List String := ["demo Owners", "demo Members", "demo Visitors"]

/-- A Python list comprehension with a fallible condition (`[x for x in l
if cond(x)]`): conditions are evaluated left to right, the first raised
exception propagates. -/
def pyFilterCond (f : JVal → Except String Bool) : List JVal → Except String (List JVal)
  | [] => .ok []
  | x :: xs => do
    let b ← f x
    let ys ← pyFilterCond f xs
    return if b then x :: ys else ys

/-- A Python comprehension mapping a fallible expression over a list. -/
def pyMapExc {β : Type} (f : JVal → Except String β) : List JVal → Except String (List β)
  | [] => .ok []
  | x :: xs => do
    let y ← f x
    let ys ← pyMapExc f xs
    return y :: ys

/-- A Python `for` loop returning `True` on the first match (`any` with a
fallible condition, short-circuiting). -/
def pyAnyExc (f : JVal → Except String Bool) : List JVal → Except String Bool
  | [] => .ok false
  | x :: xs => do
    let b ← f x
    if b then return true else pyAnyExc f xs

/-- The filter condition selecting directory-resolvable candidates
(document_permission.py:28): `"@" in g or (len(g) > 30 and not
g.startswith("demo "))`, with Python's short-circuit evaluation. -/
def azureGroupCond (g : JVal) : Except String Bool := do
  let hasAt ← pyInOp "@" g
  if hasAt then return true
  let n ← pyLen g
  if n > 30 then
    let sw ← pyStartswith g "demo "
    return !sw
  return false

/-- The fast path of the resolver (document_permission.py:19-26): members
of an organization domain are inside any of the fixed site-local groups
without a directory call (`group in sharepoint_site_groups` is Python list
membership, comparing each candidate for equality with the names). -/
def resolver_fast_path (settings : Settings) (user_email : String) (groups : JVal) :
    Except String Bool := do
  if userDomainOf user_email ∈ get_org_domains settings then
    let gl ← pyIterElems groups
    return gl.any (fun g => sharepointSiteGroups.any (fun n => g = .str n))
  else
    return false

/-- The directory-response processing of the resolver
(document_permission.py:41-49): build the lowercased display-name and mail
sets from the `value` array and scan the azure candidates for a match. -/
def resolver_directory_match (response : HttpResp) (azure_ad_groups : List JVal) :
    Except String Bool := do
  let body ← response.jsonBody
  let value ← pyDictGet body "value" (.arr [])
  let user_groups ← pyIterElems value
  let user_group_names ← pyMapExc (fun g => do
    let dn ← pyDictGet g "displayName" (.str "")
    pyLowerVal dn) user_groups
  let user_group_emails_opt ← pyMapExc (fun g => do
    let m ← pyDictGet g "mail" .null
    if pyTruthy m then
      let mv ← pyDictGet g "mail" (.str "")
      let s ← pyLowerVal mv
      return (some s : Option String)
    else
      return (none : Option String)) user_groups
  let user_group_emails := user_group_emails_opt.reduceOption
  pyAnyExc (fun group => do
    let gl ← pyLowerVal group
    return (user_group_names.contains gl || user_group_emails.contains gl)) azure_ad_groups

/-- The body of `check_user_group_membership`
(document_permission.py:18-49), i.e. everything inside its `try`.
`.error` is a raised exception reaching the `except` clause. -/
def check_user_group_membership_body (settings : Settings) (env : DirectoryEnv)
    (user_email : String) (groups : JVal) : Except String Bool := do
  let fast ← resolver_fast_path settings user_email groups
  if fast then
    return true
  else
    let gl ← pyIterElems groups
    let azure_ad_groups ← pyFilterCond azureGroupCond gl
    if azure_ad_groups.isEmpty then
      return false
    else
      let _token ← env.get_access_token
      let response ← env.memberOfResponse
      if response.status_code ≠ 200 then
        return false
      else
        resolver_directory_match response azure_ad_groups

/-- `check_user_group_membership` (document_permission.py:14-52): the body
above with its catch-all `except Exception: return False`. -/
def check_user_group_membership (settings : Settings) (env : DirectoryEnv)
    (user_email : String) (groups : JVal) : Bool :=
  match check_user_group_membership_body settings env user_email groups with
  | .ok b => b
  | .error _ => false

/-! ## Access Decision Engine (`has_document_access`) -/

/-- A document's metadata dictionary, as stored on an indexed chunk. -/
abbrev Metadata := List (String × JVal)

/-- `metadata.get(k)` as an `Option`. -/
def metaGet (md : Metadata) (k : String) : Option JVal :=
  ((md.find? (fun kv => kv.1 = k)).map Prod.snd)

/-- `metadata.get(k, default)`. -/
def metaGetD (md : Metadata) (k : String) (dflt : JVal) : JVal :=
  (metaGet md k).getD dflt

/-- The string-or-list normalization applied to `authorized_users` and
`authorized_groups` (agent.py:211-215 and 222-226): a string is parsed as
JSON after replacing single quotes by double quotes; on parse failure the
whole string becomes a one-element list; non-strings pass through. -/
def coerceListField (v : JVal) : JVal :=
  match v with
  | .str s =>
    match jsonLoads (pyNormalizeQuotes s) with
    | some jv => jv
    | none => .arr [.str s]
  | v => v

/-- `[u.lower() for u in v if isinstance(u, str)]` after iterating `v`;
iteration raises on non-iterable values. -/
def lowerStrElems (v : JVal) : Except String (List String) := do
  let elems ← pyIterElems v
  return elems.filterMap (fun u => match u with | .str s => some (pyLower s) | _ => none)

/-- `has_document_access` (agent.py:188-232).  `doc = none` models an
argument without a `metadata` attribute; `sharepoint_service` is the
truthiness of the service argument.  `.error` is an uncaught exception
(only iterating a non-iterable `authorized_users` value can raise here —
everything inside the resolver is caught by its own `except`). -/
def has_document_access (settings : Settings) (env : DirectoryEnv)
    (doc : Option Metadata) (user_email : String) (sharepoint_service : Bool) :
    Except String Bool :=
  match doc with
  | none => .ok false
  | some metadata =>
    if user_email = "" then .ok false
    else if !(["authorized_users", "authorized_groups", "access_level"].any
        (fun f => (metaGet metadata f).isSome)) then .ok false
    else
      let access_level := metaGetD metadata "access_level" (.str "private")
      if access_level = .str "public" then .ok true
      else if access_level = .str "organization" then
        .ok (decide (userDomainOf user_email ∈ get_org_domains settings))
      else do
        let authorized_users := coerceListField (metaGetD metadata "authorized_users" (.arr []))
        let authorized_users_lower ← lowerStrElems authorized_users
        if pyLower user_email ∈ authorized_users_lower then
          return true
        let authorized_groups := coerceListField (metaGetD metadata "authorized_groups" (.arr []))
        if pyTruthy authorized_groups ∧ sharepoint_service then
          return check_user_group_membership settings env user_email authorized_groups
        return false

/-! ## RBAC-filtered retrieval (`document_search_tool`) -/

/-- A candidate document from the vector store: page content plus its
metadata dictionary.  Relevance scores are carried through untouched
(`float(score)` is applied only on output), so their type is a parameter. -/
structure Doc where
  page_content : String
  metadata : List (String × JVal)
deriving DecidableEq

/- `str(v)` / `repr(v)` of a dynamic value, used when the tool stringifies
metadata values for the response.  Numbers print their stored lexeme and
repr escapes only quote and backslash characters — a harmless modelling
simplification; the claims depend only on which keys survive. -/
mutual

def pyStrOf : JVal → String
  | .null => "None"
  | .bool b => if b then "True" else "False"
  | .num s => s
  | .str s => s
  | .arr l => "[" ++ pyReprList l ++ "]"
  | .obj kvs => "\x7b" ++ pyReprMembers kvs ++ "\x7d"

def pyRepr : JVal → String
  | .null => "None"
  | .bool b => if b then "True" else "False"
  | .num s => s
  | .str s =>
    if pyStrContains s (String.singleton squoteChar) ∧ ¬pyStrContains s (String.singleton dquoteChar) then
      String.singleton dquoteChar ++ s ++ String.singleton dquoteChar
    else
      String.singleton squoteChar ++
        String.mk (s.data.flatMap (fun c =>
          if c = squoteChar ∨ c = Char.ofNat 92 then [Char.ofNat 92, c] else [c])) ++
        String.singleton squoteChar
  | .arr l => "[" ++ pyReprList l ++ "]"
  | .obj kvs => "\x7b" ++ pyReprMembers kvs ++ "\x7d"

def pyReprList : List JVal → String
  | [] => ""
  | [x] => pyRepr x
  | x :: xs => pyRepr x ++ ", " ++ pyReprList xs

def pyReprMembers : List (String × JVal) → String
  | [] => ""
  | [(k, v)] => pyRepr (.str k) ++ ": " ++ pyRepr v
  | (k, v) :: kvs => pyRepr (.str k) ++ ": " ++ pyRepr v ++ ", " ++ pyReprMembers kvs

end

/-- One record of the tool's JSON output (agent.py:173-183). -/
structure SerialDoc (σ : Type) where
  page_content : String
  metadata : List (String × String)
  source : JVal
  webUrl : JVal
  docId : JVal
  score : σ

/-- Serialization of one `(doc, score)` pair (agent.py:172-184): metadata
is stringified with the keys `authorized_users` and `authorized_groups`
dropped. -/
def serializeDoc {σ : Type} (d : Doc) (score : σ) : SerialDoc σ where
  page_content := d.page_content
  metadata :=
    (d.metadata.filter (fun kv => kv.1 ≠ "authorized_users" ∧ kv.1 ≠ "authorized_groups")).map
      (fun kv => (kv.1, pyStrOf kv.2))
  source := metaGetD d.metadata "documentName" (.str "Unknown Document")
  webUrl := metaGetD d.metadata "webUrl" (.str "Unknown URL")
  docId := metaGetD d.metadata "documentId" (.str "Unknown ID")
  score := score

/-- The permission-filtering loop of `document_search_tool`
(agent.py:157-162): walk the candidates in order, append the permitted
ones, and break once the accumulated count reaches `n` (checked after each
append).  A raised access check propagates. -/
def selectLoop {σ : Type} (settings : Settings) (env : DirectoryEnv) (user_email : String)
    (n : Nat) (acc : List (Doc × σ)) : List (Doc × σ) → Except String (List (Doc × σ))
  | [] => .ok acc
  | (d, s) :: rest => do
    let ok ← has_document_access settings env (some d.metadata) user_email true
    if ok then
      let acc2 := acc ++ [(d, s)]
      if n ≤ acc2.length then .ok acc2 else selectLoop settings env user_email n acc2 rest
    else
      selectLoop settings env user_email n acc rest

/-- Result selection of `document_search_tool` (agent.py:153-169) given the
over-fetched candidate list: the permission-filtered walk when a user email
is present and dev mode is off, plain truncation otherwise; an exception in
the filtering loop hits the enclosing `except` and yields the empty result
list. -/
def selectResults {σ : Type} (settings : Settings) (env : DirectoryEnv) (user_email : String)
    (dev_mode : Bool) (n : Nat) (candidates : List (Doc × σ)) : List (Doc × σ) :=
  if user_email ≠ "" ∧ ¬dev_mode then
    match selectLoop settings env user_email n [] candidates with
    | .ok l => l
    | .error _ => []
  else
    candidates.take n

/-- `document_search_tool` (agent.py:130-186) from the over-fetched
candidates on: select results, then serialize them. -/
def document_search_tool {σ : Type} (settings : Settings) (env : DirectoryEnv)
    (user_email : String) (dev_mode : Bool) (n : Nat) (candidates : List (Doc × σ)) :
    List (SerialDoc σ) :=
  (selectResults settings env user_email dev_mode n candidates).map
    (fun p => serializeDoc p.1 p.2)

/-! ## Permission Aggregator (`get_document_permissions`) -/

/-- The `link` facet of a raw permission entry, with the fields the
aggregator reads (absent string fields read as `""` via `.get(k, "")`). -/
structure LinkInfo where
  scope : String
  type : String
  webUrl : String
  applicationId : String
deriving DecidableEq

/-- `user` facet of a granted entity. -/
structure UserInfo where
  email : String
deriving DecidableEq

/-- `siteGroup` facet of a granted entity. -/
structure SiteGroupInfo where
  displayName : String
  id : String
  loginName : String
deriving DecidableEq

/-- `group` facet of a granted entity. -/
structure GroupInfo where
  id : String
  email : String
  displayName : String
deriving DecidableEq

/-- A granted entity (`grantedToV2`, `grantedTo`, or one element of
`grantedToIdentities`).  `none` facets model absent or empty (falsy)
sub-dicts. -/
structure GrantedEntity where
  user : Option UserInfo
  siteGroup : Option SiteGroupInfo
  group : Option GroupInfo
deriving DecidableEq

/-- A raw permission entry as returned in the `value` array of the Graph
permissions endpoint, restricted to the fields the aggregator reads. -/
structure PermissionEntry where
  link : Option LinkInfo
  grantedToV2 : Option GrantedEntity
  grantedTo : Option GrantedEntity
  grantedToIdentities : List GrantedEntity
  inheritedFrom : Bool
deriving DecidableEq

/-- A sharing-link record as the aggregator emits it
(document_permission.py:117-122). -/
structure SharingLink where
  type : String
  scope : String
  webUrl : String
  application : String
deriving DecidableEq

/-- The mutable `result` dictionary threaded through the aggregation.
`users` and `groups` are Python sets; they are modelled as
insertion-ordered duplicate-free lists and only ever compared by
membership. -/
structure PermRecord where
  users : List String
  groups : List String
  access_level : String
  inheritance : Bool
  sharing_links : List SharingLink
  error : Option String
deriving DecidableEq

/-- Set insertion (`set.add`). -/
def setAdd (l : List String) (x : String) : List String :=
  if x ∈ l then l else l ++ [x]

/-- The details `get_group_details` can recover for a group id; the
function returns `{}` on any failure, modelled by empty fields. -/
structure GroupDetails where
  mail : String
  userPrincipalName : String

/-- The external effects of `get_document_permissions`: token acquisition
(document_permission.py:66, outside the `try`), the permissions fetch
(requests.get + raise_for_status + json() + `.get("value", [])`, collapsed
into one `Except` delivering the parsed entries), and the per-group
directory lookups of `get_group_details`. -/
structure GraphEnv where
  get_access_token : Except String String
  permissionsFetch : Except String (List PermissionEntry)
  groupDetails : String → GroupDetails

/-- The `user` block of `process_granted_entity`
(document_permission.py:149-153): add the email, lowercased then stripped,
when non-empty. -/
def pgeUserStep (result : PermRecord) (user : Option UserInfo) : PermRecord :=
  match user with
  | some u =>
    let email := pyStrip (pyLower u.email)
    if email ≠ "" then { result with users := setAdd result.users email } else result
  | none => result

/-- The `siteGroup` block of `process_granted_entity`
(document_permission.py:155-166): prefer displayName, then loginName, then
id. -/
def pgeSiteGroupStep (result : PermRecord) (siteGroup : Option SiteGroupInfo) : PermRecord :=
  match siteGroup with
  | some sg =>
    if sg.displayName ≠ "" then { result with groups := setAdd result.groups sg.displayName }
    else if sg.loginName ≠ "" then { result with groups := setAdd result.groups sg.loginName }
    else if sg.id ≠ "" then { result with groups := setAdd result.groups sg.id }
    else result
  | none => result

/-- The `group` block of `process_granted_entity`
(document_permission.py:168-184): resolve an id-only group through the
directory, then prefer the email (lowercased, stripped), displayName, id. -/
def pgeGroupStep (env : GraphEnv) (result : PermRecord) (group : Option GroupInfo) : PermRecord :=
  match group with
  | some g =>
    let group_email :=
      if g.id ≠ "" ∧ g.email = "" then
        let details := env.groupDetails g.id
        if details.mail ≠ "" then details.mail else details.userPrincipalName
      else g.email
    if group_email ≠ "" then
      { result with groups := setAdd result.groups (pyStrip (pyLower group_email)) }
    else if g.displayName ≠ "" then { result with groups := setAdd result.groups g.displayName }
    else if g.id ≠ "" then { result with groups := setAdd result.groups g.id }
    else result
  | none => result

/-- `process_granted_entity` (document_permission.py:145-189): the three
blocks in order.  Applications are read but ignored. -/
def process_granted_entity (env : GraphEnv) (entity : GrantedEntity) (result : PermRecord) :
    PermRecord :=
  pgeGroupStep env (pgeSiteGroupStep (pgeUserStep result entity.user) entity.siteGroup)
    entity.group

/-- The link half of `process_permission_entry`
(document_permission.py:112-128): record the sharing link and escalate
`access_level` by its scope. -/
def process_entry_link (result : PermRecord) (lnk : Option LinkInfo) : PermRecord :=
  match lnk with
  | some link =>
    let sharing_link : SharingLink :=
      { type := link.type, scope := link.scope, webUrl := link.webUrl,
        application := link.applicationId }
    let result := { result with sharing_links := result.sharing_links ++ [sharing_link] }
    if link.scope = "anonymous" then { result with access_level := "public" }
    else if link.scope = "organization" then { result with access_level := "organization" }
    else result
  | none => result

/-- `process_permission_entry` (document_permission.py:108-143): record the
sharing link and escalate `access_level` by its scope, process every
granted entity, and latch `inheritance`. -/
def process_permission_entry (env : GraphEnv) (result : PermRecord) (permission : PermissionEntry) :
    PermRecord :=
  let result := process_entry_link result permission.link
  let result :=
    match permission.grantedToV2 with
    | some e => process_granted_entity env e result
    | none => result
  let result :=
    match permission.grantedTo with
    | some e => process_granted_entity env e result
    | none => result
  let result := permission.grantedToIdentities.foldl
    (fun r e => process_granted_entity env e r) result
  if permission.inheritedFrom then { result with inheritance := true } else result

/-- The post-loop over `sharing_links` (document_permission.py:91-97):
re-derive the access level from the recorded links, first anonymous link
wins and breaks, organization links escalate unless already public. -/
def linksPostLoop (level : String) : List SharingLink → String
  | [] => level
  | link :: rest =>
    if link.scope = "anonymous" then "public"
    else if link.scope = "organization" ∧ level ≠ "public" then linksPostLoop "organization" rest
    else linksPostLoop level rest

/-- The successful aggregation path of `get_document_permissions`
(document_permission.py:76-103): fold the entries through
`process_permission_entry`, re-derive the level from the sharing links,
then upgrade a still-private level to `restricted` when direct grants
exist. -/
def aggInit : PermRecord :=
  { users := [], groups := [], access_level := "private", inheritance := false,
    sharing_links := [], error := none }

/-- The guarded post-loop (document_permission.py:91-97) as a record step. -/
def linksPostStep (result : PermRecord) : PermRecord :=
  if result.sharing_links ≠ [] then
    { result with access_level := linksPostLoop result.access_level result.sharing_links }
  else result

/-- The restricted upgrade (document_permission.py:99-101) as a record
step. -/
def restrictedUpgradeStep (result : PermRecord) : PermRecord :=
  if result.users ≠ [] ∨ result.groups ≠ [] then
    if result.access_level = "private" then { result with access_level := "restricted" }
    else result
  else result

def aggregateEntries (env : GraphEnv) (permissions : List PermissionEntry) : PermRecord :=
  restrictedUpgradeStep (linksPostStep (permissions.foldl (process_permission_entry env) aggInit))

/-- `get_document_permissions` (document_permission.py:62-106): the token
is acquired before the `try`, so a raising token call propagates
(`.error`); inside the `try`, a failing fetch returns the private record
with an `error` field. -/
def get_document_permissions (env : GraphEnv) : Except String PermRecord := do
  let _token ← env.get_access_token
  match env.permissionsFetch with
  | .error e =>
    return { users := [], groups := [], access_level := "private", inheritance := false,
             sharing_links := [], error := some e }
  | .ok permissions =>
    return aggregateEntries env permissions

/-! ## Authentication (`get_current_user`) -/

/-- An incoming request as `get_current_user` observes it: its headers
(name lookup is case-insensitive, as in Starlette) and the optional bearer
credential. -/
structure RequestModel where
  headers : List (String × String)
  credentials : Option String

/-- `request.headers.get(k)`. -/
def headerGetOpt (req : RequestModel) (k : String) : Option String :=
  ((req.headers.find? (fun kv => pyLower kv.1 = pyLower k)).map Prod.snd)

/-- `request.headers.get(k, default)`. -/
def headerGetD (req : RequestModel) (k : String) (dflt : String) : String :=
  (headerGetOpt req k).getD dflt

/-- The JWT validation call (`validate_sharepoint_token`), passed in as an
environment function since it depends on the current time; `.error` models
it raising, `.ok` returns the decoded claims dictionary. -/
structure AuthEnv where
  validate_sharepoint_token : String → Except String JVal

/-- The user-context dictionary `get_current_user` returns. -/
structure CurrentUser where
  email : String
  name : JVal
  is_authenticated : Bool
  dev_mode : Bool
deriving DecidableEq

/-- `payload.get(k1) or payload.get(k2) or ...`: first truthy claim value,
`None` when all are falsy; raises when the payload is not a dict. -/
def jwtFirstTruthy (payload : JVal) : List String → Except String JVal
  | [] => .ok .null
  | k :: ks => do
    let v ← pyDictGet payload k .null
    if pyTruthy v then return v else jwtFirstTruthy payload ks

/-- `v.strip().lower()`: only strings have it. -/
def pyStripLowerVal : JVal → Except String String
  | .str s => .ok (pyLower (pyStrip s))
  | _ => .error "AttributeError: strip"

/-- The production branch of `get_current_user` (auth.py:64-133): resolve
the user from SharePoint headers or, failing that, the JWT, and always
stamp `dev_mode: False`.  `.error` models a raised `HTTPException` (or an
uncaught attribute error on a malformed JWT claim). -/
def production_user (env : AuthEnv) (req : RequestModel) : Except String CurrentUser :=
    let user_email : JVal :=
      match headerGetOpt req "X-SharePoint-User" with
      | some s =>
        if s ≠ "" then
          if pyStrContains s "|" then .str ((pySplitChar '|' s).getLastD "") else .str s
        else .null
      | none => .null
    let user_email : JVal :=
      if ¬pyTruthy user_email then
        match headerGetOpt req "X-User-Email" with
        | some s => .str s
        | none => .null
      else user_email
    let user_name : JVal :=
      let n1 : JVal := match headerGetOpt req "X-User-Name" with
        | some s => .str s
        | none => .null
      let n2 : JVal := match headerGetOpt req "X-SharePoint-DisplayName" with
        | some s => .str s
        | none => .null
      if pyTruthy n1 then n1 else n2
    let jwtStep : Except String (JVal × JVal) :=
      if ¬pyTruthy user_email then
        match req.credentials with
        | some cred =>
          match env.validate_sharepoint_token cred with
          | .error e => .error ("HTTPException 401: Invalid authentication token: " ++ e)
          | .ok payload =>
            -- claim extraction happens inside the same `try`
            match (do
              let e ← jwtFirstTruthy payload ["email", "upn", "unique_name", "preferred_username"]
              let n ← jwtFirstTruthy payload ["name", "given_name", "family_name"]
              return (e, n) : Except String (JVal × JVal)) with
            | .error e => .error ("HTTPException 401: Invalid authentication token: " ++ e)
            | .ok p => .ok p
        | none => .ok (user_email, user_name)
      else .ok (user_email, user_name)
    match jwtStep with
    | .error e => .error e
    | .ok (user_email, user_name) =>
      if ¬pyTruthy user_email then
        .error "HTTPException 401: Authentication required"
      else
        match pyStripLowerVal user_email with
        | .error e => .error e
        | .ok emailStr =>
          .ok { email := emailStr,
                name := if pyTruthy user_name then user_name
                        else .str ((pySplitChar '@' emailStr).getD 0 ""),
                is_authenticated := true, dev_mode := false }

/-- `get_current_user` (auth.py:18-133).  Dev mode requires both the
deployment flag (`settings.DEV_MODE`) and the `X-Dev-Mode: true` header
(compared case-insensitively); otherwise the production branch runs. -/
def get_current_user (settings : Settings) (env : AuthEnv) (req : RequestModel) :
    Except String CurrentUser :=
  let dev_mode_header := pyLower (headerGetD req "X-Dev-Mode" "") = "true"
  let dev_mode_enabled := settings.DEV_MODE ∧ dev_mode_header
  if dev_mode_enabled then
    let user_email := headerGetD req "X-User-Email" "dev@example.com"
    if user_email = "" ∨ ¬pyStrContains user_email "@" then
      .error "HTTPException 401: Invalid dev mode email format"
    else
      .ok { email := user_email,
            name := .str (headerGetD req "X-SharePoint-User" "Developer"),
            is_authenticated := true, dev_mode := true }
  else
    production_user env req

/-! # Theorems -/

/-! ## C4: fail-closed on permission-less metadata -/

/-- C4: for every document whose metadata contains none of the keys
`authorized_users`, `authorized_groups`, `access_level`, and every user
email, the access decision with dev mode off returns `false`
(fail-closed). -/
theorem access_fail_closed_without_permission_fields
    (settings : Settings) (env : DirectoryEnv) (md : Metadata) (user_email : String)
    (svc : Bool)
    (h1 : metaGet md "authorized_users" = none)
    (h2 : metaGet md "authorized_groups" = none)
    (h3 : metaGet md "access_level" = none) :
    has_document_access settings env (some md) user_email svc = .ok false := by
  unfold has_document_access
  simp [h1, h2, h3]

/-- Witness for C4 at a concrete pre-permission-era metadata record. -/
theorem access_fail_closed_without_permission_fields_witness :
    has_document_access ⟨"acme.com", false⟩ ⟨.error "t", .error "r"⟩
      (some [("documentName", JVal.str "d")]) "a@b.com" true = .ok false :=
  access_fail_closed_without_permission_fields _ _ _ _ _ rfl rfl rfl

/-! ## C7: aggregation failure semantics (token acquisition is outside the
`try`) -/

/-- C7 counterexample: when acquiring the access token itself fails, the
permission aggregation does not return the private-with-error record — the
exception propagates to the caller. -/
theorem get_document_permissions_token_failure_raises :
    get_document_permissions ⟨.error "boom", .ok [], fun _ => ⟨"", ""⟩⟩ = .error "boom" ∧
    ∀ r, get_document_permissions ⟨.error "boom", .ok [], fun _ => ⟨"", ""⟩⟩ ≠ .ok r := by
  refine ⟨rfl, ?_⟩
  intro r h
  rw [show get_document_permissions ⟨.error "boom", .ok [], fun _ => ⟨"", ""⟩⟩ =
    .error "boom" from rfl] at h
  exact Except.noConfusion h

/-- C7 amended: once the token has been acquired, the aggregation never
raises, and a failing permissions fetch yields the record
`users=[], groups=[], access_level="private"` with an `error` field. -/
theorem get_document_permissions_no_raise_after_token
    (env : GraphEnv) (tok : String)
    (htok : env.get_access_token = .ok tok) :
    (∀ e, env.permissionsFetch = .error e →
      get_document_permissions env =
        .ok { users := [], groups := [], access_level := "private", inheritance := false,
              sharing_links := [], error := some e }) ∧
    (∃ r, get_document_permissions env = .ok r) := by
  constructor
  · intro e hf
    simp [get_document_permissions, htok, hf]
  · cases hf : env.permissionsFetch with
    | error e =>
      exact ⟨{ users := [], groups := [], access_level := "private", inheritance := false,
               sharing_links := [], error := some e },
             by simp [get_document_permissions, htok, hf]⟩
    | ok permissions =>
      exact ⟨aggregateEntries env permissions,
             by simp [get_document_permissions, htok, hf]⟩

/-- Witness for the amended C7 at a concrete environment whose fetch
fails. -/
theorem get_document_permissions_no_raise_after_token_witness :
    (∀ e, (Except.error "down" : Except String (List PermissionEntry)) = .error e →
      get_document_permissions ⟨.ok "tok", .error "down", fun _ => ⟨"", ""⟩⟩ =
        .ok { users := [], groups := [], access_level := "private", inheritance := false,
              sharing_links := [], error := some e }) ∧
    (∃ r, get_document_permissions ⟨.ok "tok", .error "down", fun _ => ⟨"", ""⟩⟩ = .ok r) :=
  get_document_permissions_no_raise_after_token ⟨.ok "tok", .error "down", fun _ => ⟨"", ""⟩⟩
    "tok" rfl

/-! ## C9: the dev-mode double gate -/

/-- Every successful run of the production branch stamps `dev_mode = false`. -/
theorem production_user_dev_mode_false (env : AuthEnv) (req : RequestModel) (u : CurrentUser)
    (h : production_user env req = .ok u) : u.dev_mode = false := by
  simp only [production_user] at h
  repeat' split at h
  all_goals first
    | exact Except.noConfusion h
    | (cases h; rfl)

/-- C9: the resulting user context carries `dev_mode = true` exactly when
both the deployment-level `DEV_MODE` setting is on and the request's
`X-Dev-Mode` header equals `"true"` case-insensitively; with either gate
absent, `dev_mode` is `false`. -/
theorem dev_mode_requires_double_gate (settings : Settings) (env : AuthEnv)
    (req : RequestModel) (u : CurrentUser)
    (h : get_current_user settings env req = .ok u) :
    u.dev_mode = true ↔
      (settings.DEV_MODE = true ∧ pyLower (headerGetD req "X-Dev-Mode" "") = "true") := by
  by_cases hg : settings.DEV_MODE = true ∧ pyLower (headerGetD req "X-Dev-Mode" "") = "true"
  · simp only [get_current_user] at h
    rw [if_pos (by exact ⟨hg.1, hg.2⟩)] at h
    split at h
    · exact Except.noConfusion h
    · cases h
      simpa using hg
  · simp only [get_current_user] at h
    rw [if_neg (fun hc => hg ⟨hc.1, hc.2⟩)] at h
    rw [production_user_dev_mode_false env req u h]
    simp [hg]

/-- Witness for C9: both gates on, dev-mode context returned. -/
theorem dev_mode_requires_double_gate_witness :
    (CurrentUser.dev_mode ⟨"d@e.com", .str "Developer", true, true⟩ = true ↔
      ((true : Bool) = true ∧
        pyLower (headerGetD ⟨[("X-Dev-Mode", "TRUE"), ("X-User-Email", "d@e.com")], none⟩
          "X-Dev-Mode" "") = "true")) :=
  dev_mode_requires_double_gate ⟨"", true⟩ ⟨fun _ => .error "x"⟩
    ⟨[("X-Dev-Mode", "TRUE"), ("X-User-Email", "d@e.com")], none⟩
    ⟨"d@e.com", .str "Developer", true, true⟩ rfl

/-! ## C5: the filtered retrieval returns a permitted prefix -/

/-- The boolean access verdict of a candidate (false also covers a raised
check, which cannot happen under the well-formedness hypothesis below). -/
def accessOk {σ : Type} (settings : Settings) (env : DirectoryEnv) (user_email : String)
    (p : Doc × σ) : Bool :=
  match has_document_access settings env (some p.1.metadata) user_email true with
  | .ok b => b
  | .error _ => false

/-- The filtering loop collects the first `n - acc.length` permitted
candidates after the accumulator. -/
theorem selectLoop_eq_take {σ : Type} (settings : Settings) (env : DirectoryEnv)
    (user_email : String) (n : Nat) :
    ∀ (cands : List (Doc × σ)) (acc : List (Doc × σ)),
      (∀ p ∈ cands, ∃ b, has_document_access settings env (some p.1.metadata) user_email true = .ok b) →
      acc.length < n →
      selectLoop settings env user_email n acc cands =
        .ok (acc ++ ((cands.filter (accessOk settings env user_email)).take (n - acc.length)))
  | [], acc, _, _ => by simp [selectLoop]
  | (d, s) :: rest, acc, hok, hlt => by
    obtain ⟨b, hb⟩ := hok (d, s) (List.mem_cons_self _ _)
    have haok : accessOk settings env user_email (d, s) = b := by
      simp [accessOk, hb]
    have hrest : ∀ p ∈ rest, ∃ b, has_document_access settings env (some p.1.metadata)
        user_email true = .ok b :=
      fun p hp => hok p (List.mem_cons_of_mem _ hp)
    cases b with
    | false =>
      rw [show selectLoop settings env user_email n acc ((d, s) :: rest) =
          Except.bind (has_document_access settings env (some d.metadata) user_email true)
            (fun ok => if ok then
              (if n ≤ (acc ++ [(d, s)]).length then .ok (acc ++ [(d, s)])
               else selectLoop settings env user_email n (acc ++ [(d, s)]) rest)
              else selectLoop settings env user_email n acc rest) from rfl]
      rw [hb]
      simp only [Except.bind, Bool.false_eq_true, if_false]
      rw [selectLoop_eq_take settings env user_email n rest acc hrest hlt]
      rw [List.filter_cons_of_neg (by simp [haok])]
    | true =>
      rw [show selectLoop settings env user_email n acc ((d, s) :: rest) =
          Except.bind (has_document_access settings env (some d.metadata) user_email true)
            (fun ok => if ok then
              (if n ≤ (acc ++ [(d, s)]).length then .ok (acc ++ [(d, s)])
               else selectLoop settings env user_email n (acc ++ [(d, s)]) rest)
              else selectLoop settings env user_email n acc rest) from rfl]
      rw [hb]
      simp only [Except.bind, if_true]
      rw [List.filter_cons_of_pos (by simp [haok])]
      by_cases hfull : n ≤ (acc ++ [(d, s)]).length
      · rw [if_pos hfull]
        have hn : n - acc.length = 1 := by
          simp only [List.length_append, List.length_cons, List.length_nil] at hfull ⊢
          omega
        rw [hn]
        simp
      · rw [if_neg hfull]
        have hlt2 : (acc ++ [(d, s)]).length < n := by
          simp only [List.length_append, List.length_cons, List.length_nil] at hfull ⊢
          omega
        rw [selectLoop_eq_take settings env user_email n rest (acc ++ [(d, s)]) hrest hlt2]
        have hn : n - acc.length = (n - (acc ++ [(d, s)]).length) + 1 := by
          simp only [List.length_append, List.length_cons, List.length_nil]
          omega
        rw [hn, List.take_succ_cons]
        simp

/-- C5 (amended: requested count at least 1): with dev mode off and a user
email present, when no candidate's access check raises, the filtered
retrieval returns exactly the first `min(n, number permitted)` permitted
candidates of the over-fetched pool, in their original order, and never
more than `n`; no further candidates beyond the given pool are consulted. -/
theorem filtered_retrieval_takes_permitted_prefix {σ : Type}
    (settings : Settings) (env : DirectoryEnv) (user_email : String) (n : Nat)
    (cands : List (Doc × σ))
    (hemail : user_email ≠ "") (hn : 1 ≤ n)
    (hok : ∀ p ∈ cands, ∃ b, has_document_access settings env (some p.1.metadata) user_email true = .ok b) :
    selectResults settings env user_email false n cands =
      (cands.filter (accessOk settings env user_email)).take n ∧
    (selectResults settings env user_email false n cands).length ≤ n := by
  have hloop := selectLoop_eq_take settings env user_email n cands [] hok
    (by simp only [List.length_nil]; omega)
  have hres : selectResults settings env user_email false n cands =
      (cands.filter (accessOk settings env user_email)).take n := by
    simp only [selectResults]
    rw [if_pos (by exact ⟨hemail, by simp⟩)]
    rw [hloop]
    simp
  exact ⟨hres, by rw [hres]; exact le_trans (List.length_take_le _ _) (le_refl n)⟩

/-- Witness for C5 on a concrete pool: of four candidates only the three
public ones pass; with `n = 2` the first two permitted are returned in
order. -/
theorem filtered_retrieval_takes_permitted_prefix_witness :
    selectResults ⟨"acme.com", false⟩ ⟨.error "t", .error "r"⟩ "u@x.com" false 2
        [(⟨"c1", [("access_level", JVal.str "private")]⟩, (1 : Int)),
         (⟨"c2", [("access_level", JVal.str "public")]⟩, (2 : Int)),
         (⟨"c3", [("access_level", JVal.str "public")]⟩, (3 : Int)),
         (⟨"c4", [("access_level", JVal.str "public")]⟩, (4 : Int))] =
      ([(⟨"c1", [("access_level", JVal.str "private")]⟩, (1 : Int)),
        (⟨"c2", [("access_level", JVal.str "public")]⟩, (2 : Int)),
        (⟨"c3", [("access_level", JVal.str "public")]⟩, (3 : Int)),
        (⟨"c4", [("access_level", JVal.str "public")]⟩, (4 : Int))].filter
          (accessOk ⟨"acme.com", false⟩ ⟨.error "t", .error "r"⟩ "u@x.com")).take 2 ∧
    (selectResults ⟨"acme.com", false⟩ ⟨.error "t", .error "r"⟩ "u@x.com" false 2
        [(⟨"c1", [("access_level", JVal.str "private")]⟩, (1 : Int)),
         (⟨"c2", [("access_level", JVal.str "public")]⟩, (2 : Int)),
         (⟨"c3", [("access_level", JVal.str "public")]⟩, (3 : Int)),
         (⟨"c4", [("access_level", JVal.str "public")]⟩, (4 : Int))]).length ≤ 2 :=
  filtered_retrieval_takes_permitted_prefix _ _ _ _ _ (by decide) (by decide)
    (by
      intro p hp
      fin_cases hp
      · exact ⟨false, rfl⟩
      · exact ⟨true, rfl⟩
      · exact ⟨true, rfl⟩
      · exact ⟨true, rfl⟩)

/-- C5 counterexample: with requested count `n = 0` and a permitted
candidate, the loop appends before checking the quota, so the result has
length `1 > 0` — the claim's `min(n, …)`/`length ≤ n` bound fails at
`n = 0`. -/
theorem filtered_retrieval_zero_count_counterexample :
    selectResults ⟨"acme.com", false⟩ ⟨.error "t", .error "r"⟩ "u@x.com" false 0
        [(⟨"c", [("access_level", JVal.str "public")]⟩, (1 : Int))] =
      [(⟨"c", [("access_level", JVal.str "public")]⟩, (1 : Int))] ∧
    ¬((selectResults ⟨"acme.com", false⟩ ⟨.error "t", .error "r"⟩ "u@x.com" false 0
        [(⟨"c", [("access_level", JVal.str "public")]⟩, (1 : Int))]).length ≤ 0) := by
  constructor
  · rfl
  · rw [show selectResults ⟨"acme.com", false⟩ ⟨.error "t", .error "r"⟩ "u@x.com" false 0
        [(⟨"c", [("access_level", JVal.str "public")]⟩, (1 : Int))] =
      [(⟨"c", [("access_level", JVal.str "public")]⟩, (1 : Int))] from rfl]
    simp

/-! ## C3: exposed metadata never leaks ACL fields -/

/-- Everything the filtering loop returns comes from the accumulator or the
candidate pool. -/
theorem selectLoop_subset {σ : Type} (settings : Settings) (env : DirectoryEnv)
    (user_email : String) (n : Nat) :
    ∀ (cands acc res : List (Doc × σ)),
      selectLoop settings env user_email n acc cands = .ok res →
      ∀ p ∈ res, p ∈ acc ∨ p ∈ cands
  | [], acc, res, h, p, hp => by
    simp only [selectLoop] at h
    cases h
    exact Or.inl hp
  | (d, s) :: rest, acc, res, h, p, hp => by
    rw [show selectLoop settings env user_email n acc ((d, s) :: rest) =
        Except.bind (has_document_access settings env (some d.metadata) user_email true)
          (fun ok => if ok then
            (if n ≤ (acc ++ [(d, s)]).length then .ok (acc ++ [(d, s)])
             else selectLoop settings env user_email n (acc ++ [(d, s)]) rest)
            else selectLoop settings env user_email n acc rest) from rfl] at h
    cases hacc : has_document_access settings env (some d.metadata) user_email true with
    | error e =>
      rw [hacc] at h
      exact Except.noConfusion h
    | ok b =>
      rw [hacc] at h
      simp only [Except.bind] at h
      cases b with
      | false =>
        simp only [Bool.false_eq_true, if_false] at h
        rcases selectLoop_subset settings env user_email n rest acc res h p hp with hin | hin
        · exact Or.inl hin
        · exact Or.inr (List.mem_cons_of_mem _ hin)
      | true =>
        simp only [if_true] at h
        by_cases hfull : n ≤ (acc ++ [(d, s)]).length
        · rw [if_pos hfull] at h
          cases h
          rcases List.mem_append.mp hp with hin | hin
          · exact Or.inl hin
          · exact Or.inr (by rw [List.mem_singleton.mp hin]; exact List.mem_cons_self _ _)
        · rw [if_neg hfull] at h
          rcases selectLoop_subset settings env user_email n rest (acc ++ [(d, s)]) res h p hp with hin | hin
          · rcases List.mem_append.mp hin with hin2 | hin2
            · exact Or.inl hin2
            · exact Or.inr (by rw [List.mem_singleton.mp hin2]; exact List.mem_cons_self _ _)
          · exact Or.inr (List.mem_cons_of_mem _ hin)

/-- C3: every record the retrieval tool returns exposes a metadata
dictionary without the keys `authorized_users` and `authorized_groups`,
while an `access_level` key present on the source document is retained;
this covers the permission-filtered path and the dev-mode/no-user path
alike (the statement quantifies over both). -/
theorem search_results_never_leak_acls {σ : Type}
    (settings : Settings) (env : DirectoryEnv) (user_email : String) (dev_mode : Bool)
    (n : Nat) (cands : List (Doc × σ)) :
    ∀ rec ∈ document_search_tool settings env user_email dev_mode n cands,
      (∀ v, ("authorized_users", v) ∉ rec.metadata) ∧
      (∀ v, ("authorized_groups", v) ∉ rec.metadata) ∧
      ∃ p, p ∈ cands ∧ rec = serializeDoc p.1 p.2 ∧
        (∀ v, ("access_level", v) ∈ p.1.metadata →
          ("access_level", pyStrOf v) ∈ rec.metadata) := by
  intro rec hrec
  simp only [document_search_tool] at hrec
  obtain ⟨p, hpsel, hpeq⟩ := List.mem_map.mp hrec
  have hpin : p ∈ cands := by
    simp only [selectResults] at hpsel
    split at hpsel
    · cases hloop : selectLoop settings env user_email n ([] : List (Doc × σ)) cands with
      | error e =>
        rw [hloop] at hpsel
        simp at hpsel
      | ok res =>
        rw [hloop] at hpsel
        rcases selectLoop_subset settings env user_email n cands [] res hloop p hpsel with hin | hin
        · simp at hin
        · exact hin
    · exact List.take_subset n cands hpsel
  subst hpeq
  refine ⟨?_, ?_, p, hpin, rfl, ?_⟩
  · intro v hv
    simp only [serializeDoc] at hv
    obtain ⟨kv, hkvmem, hkveq⟩ := List.mem_map.mp hv
    have hk : kv.1 = "authorized_users" := congrArg Prod.fst hkveq
    have := (List.mem_filter.mp hkvmem).2
    simp [hk] at this
  · intro v hv
    simp only [serializeDoc] at hv
    obtain ⟨kv, hkvmem, hkveq⟩ := List.mem_map.mp hv
    have hk : kv.1 = "authorized_groups" := congrArg Prod.fst hkveq
    have := (List.mem_filter.mp hkvmem).2
    simp [hk] at this
  · intro v hv
    simp only [serializeDoc]
    exact List.mem_map.mpr ⟨("access_level", v),
      List.mem_filter.mpr ⟨hv, by simp⟩, rfl⟩

/-- A concrete permission-bearing document for the C3 witness. -/
def sampleAclDoc : Doc :=
  ⟨"body", [("access_level", .str "public"), ("authorized_users", .arr [.str "a@b.com"]),
            ("authorized_groups", .arr [.str "G"]), ("documentName", .str "Doc")]⟩

/-- Witness for C3 at a concrete returned record. -/
theorem search_results_never_leak_acls_witness :
    (∀ v, ("authorized_users", v) ∉ (serializeDoc sampleAclDoc (1 : Int)).metadata) ∧
    (∀ v, ("authorized_groups", v) ∉ (serializeDoc sampleAclDoc (1 : Int)).metadata) ∧
    ∃ p, p ∈ [(sampleAclDoc, (1 : Int))] ∧
      serializeDoc sampleAclDoc (1 : Int) = serializeDoc p.1 p.2 ∧
      (∀ v, ("access_level", v) ∈ p.1.metadata →
        ("access_level", pyStrOf v) ∈ (serializeDoc sampleAclDoc (1 : Int)).metadata) :=
  search_results_never_leak_acls ⟨"acme.com", false⟩ ⟨.error "t", .error "r"⟩ "u@x.com" false 1
    [(sampleAclDoc, (1 : Int))] (serializeDoc sampleAclDoc (1 : Int))
    (by
      rw [show document_search_tool ⟨"acme.com", false⟩ ⟨.error "t", .error "r"⟩ "u@x.com" false 1
          [(sampleAclDoc, (1 : Int))] = [serializeDoc sampleAclDoc (1 : Int)] from rfl]
      exact List.mem_singleton.mpr rfl)

/-! ## C6: the Group Membership Resolver is fail-closed -/

/-- The azure-candidate condition specialized to string groups. -/
def azureStrCond (s : String) : Bool :=
  if pyStrContains s "@" then true
  else if s.length > 30 then !("demo ".isPrefixOf s)
  else false

theorem azureGroupCond_str (s : String) :
    azureGroupCond (.str s) = .ok (azureStrCond s) := by
  by_cases h1 : pyStrContains s "@" = true <;>
    by_cases h2 : s.length > 30 <;>
      simp [azureGroupCond, azureStrCond, pyInOp, pyLen, pyStartswith,
        Bind.bind, Except.bind, Pure.pure, Except.pure, h1, h2]

theorem pyFilterCond_str_groups (l : List String) :
    pyFilterCond azureGroupCond (l.map .str) = .ok ((l.filter azureStrCond).map .str) := by
  induction l with
  | nil => rfl
  | cons s rest ih =>
    simp only [List.map_cons, pyFilterCond, azureGroupCond_str, Bind.bind, Except.bind, ih,
      List.filter_cons]
    by_cases h : azureStrCond s = true <;> simp [h, Pure.pure, Except.pure]

theorem exceptBindOk {ε α β : Type} (a : α) (f : α → Except ε β) :
    Except.bind (.ok a) f = f a := rfl

theorem exceptOkBindM {ε α β : Type} (a : α) (f : α → Except ε β) :
    ((Except.ok a : Except ε α) >>= f) = f a := rfl

theorem exceptPureBindM {ε α β : Type} (a : α) (f : α → Except ε β) :
    ((pure a : Except ε α) >>= f) = f a := rfl

theorem exceptBindErr {ε α β : Type} (e : ε) (f : α → Except ε β) :
    Except.bind (.error e) f = .error e := rfl

/-- The fast path on a list value reduces to the pure site-group check. -/
theorem resolver_fast_path_arr (settings : Settings) (user_email : String) (l : List JVal) :
    resolver_fast_path settings user_email (.arr l) =
      .ok (if userDomainOf user_email ∈ get_org_domains settings then
        l.any (fun g => sharepointSiteGroups.any (fun n => g = .str n)) else false) := by
  by_cases h : userDomainOf user_email ∈ get_org_domains settings <;>
    simp [resolver_fast_path, pyIterElems, h, Bind.bind, Except.bind, Pure.pure, Except.pure]

/-- C6: whenever any step of `check_user_group_membership` raises — token
acquisition, the directory HTTP call, or processing a malformed response —
the catch-all turns it into `false` and nothing propagates (first
conjunct); moreover, off the no-network fast path, every failing
environment — token raised, directory call raised, non-200 status, or a
body whose JSON decoding raises — yields `false` (second conjunct). -/
theorem resolver_fail_closed (settings : Settings) (env : DirectoryEnv)
    (user_email : String) (groups : List String) :
    (∀ msg, check_user_group_membership_body settings env user_email (.arr (groups.map .str)) =
        .error msg →
      check_user_group_membership settings env user_email (.arr (groups.map .str)) = false) ∧
    (¬(userDomainOf user_email ∈ get_org_domains settings ∧
        (groups.map JVal.str).any (fun g => sharepointSiteGroups.any (fun n => g = .str n)) = true) →
      ((∃ e, env.get_access_token = .error e) ∨ (∃ e, env.memberOfResponse = .error e) ∨
        (∃ resp, env.memberOfResponse = .ok resp ∧
          (resp.status_code ≠ 200 ∨ ∃ e, resp.jsonBody = .error e))) →
      check_user_group_membership settings env user_email (.arr (groups.map .str)) = false) := by
  constructor
  · intro msg h
    simp [check_user_group_membership, h]
  · intro hfast hdisj
    have hbody : (check_user_group_membership_body settings env user_email
        (.arr (groups.map .str)) = .ok false ∨
        ∃ e, check_user_group_membership_body settings env user_email
          (.arr (groups.map .str)) = .error e) →
        check_user_group_membership settings env user_email (.arr (groups.map .str)) = false := by
      intro hcase
      rcases hcase with hr | ⟨e, hr⟩ <;> simp [check_user_group_membership, hr]
    apply hbody
    have hfastv : (if userDomainOf user_email ∈ get_org_domains settings then
        (groups.map JVal.str).any (fun g => sharepointSiteGroups.any (fun n => g = .str n))
        else false) = false := by
      by_cases hdom : userDomainOf user_email ∈ get_org_domains settings
      · rw [if_pos hdom]
        cases hX : (groups.map JVal.str).any
            (fun g => sharepointSiteGroups.any (fun n => g = .str n)) with
        | true => exact absurd ⟨hdom, hX⟩ hfast
        | false => rfl
      · exact if_neg hdom
    unfold check_user_group_membership_body
    rw [resolver_fast_path_arr]
    simp only [Bind.bind, exceptBindOk]
    rw [hfastv]
    simp only [Bool.false_eq_true, if_false, pyIterElems, exceptBindOk,
      pyFilterCond_str_groups]
    by_cases haz : (((groups.filter azureStrCond).map JVal.str)).isEmpty = true
    · rw [if_pos haz]
      exact Or.inl rfl
    · rw [if_neg (by simpa using haz)]
      cases htok : env.get_access_token with
      | error e =>
        rw [exceptBindErr]
        exact Or.inr ⟨e, rfl⟩
      | ok tok =>
        rw [exceptBindOk]
        rcases hdisj with ⟨e, htok2⟩ | ⟨e, hresp⟩ | ⟨resp, hresp, hsub⟩
        · rw [htok] at htok2
          exact Except.noConfusion htok2
        · rw [hresp, exceptBindErr]
          exact Or.inr ⟨e, rfl⟩
        · rw [hresp, exceptBindOk]
          rcases hsub with hst | ⟨e, hjson⟩
          · rw [if_pos hst]
            exact Or.inl rfl
          · by_cases hst : resp.status_code ≠ 200
            · rw [if_pos hst]
              exact Or.inl rfl
            · rw [if_neg hst]
              unfold resolver_directory_match
              rw [hjson]
              simp only [Bind.bind, exceptBindErr]
              exact Or.inr ⟨e, rfl⟩

/-! ## Aggregation analysis (C2, C10)

The contribution of a single entry to the permission record, read off
`process_permission_entry`/`process_granted_entity`. -/

/-- `LinkInfo` to the recorded `SharingLink`. -/
def linkToSL (l : LinkInfo) : SharingLink :=
  { type := l.type, scope := l.scope, webUrl := l.webUrl, application := l.applicationId }

/-- The sharing link an entry records, if any. -/
def entrySharingLink (e : PermissionEntry) : Option SharingLink :=
  e.link.map linkToSL

/-- One scope-escalation step of the per-entry processing. -/
def slStep (level : String) (sl : SharingLink) : String :=
  if sl.scope = "anonymous" then "public"
  else if sl.scope = "organization" then "organization"
  else level

/-- Some recorded sharing link has anonymous scope. -/
def anyAnonSL (sls : List SharingLink) : Bool := sls.any (fun l => l.scope == "anonymous")

/-- Some recorded sharing link has organization scope. -/
def anyOrgSL (sls : List SharingLink) : Bool := sls.any (fun l => l.scope == "organization")

/-- The user email the `user` facet contributes, if any. -/
def userEmailOf (user : Option UserInfo) : Option String :=
  user.bind (fun u =>
    let email := pyStrip (pyLower u.email)
    if email ≠ "" then some email else none)

/-- The identifier the `siteGroup` facet contributes, if any. -/
def siteGroupIdOf (siteGroup : Option SiteGroupInfo) : Option String :=
  siteGroup.bind (fun sg =>
    if sg.displayName ≠ "" then some sg.displayName
    else if sg.loginName ≠ "" then some sg.loginName
    else if sg.id ≠ "" then some sg.id
    else none)

/-- The identifier the `group` facet contributes, if any (consulting the
directory lookup for an id-only group). -/
def groupMailOf (env : GraphEnv) (group : Option GroupInfo) : Option String :=
  group.bind (fun g =>
    let group_email :=
      if g.id ≠ "" ∧ g.email = "" then
        let details := env.groupDetails g.id
        if details.mail ≠ "" then details.mail else details.userPrincipalName
      else g.email
    if group_email ≠ "" then some (pyStrip (pyLower group_email))
    else if g.displayName ≠ "" then some g.displayName
    else if g.id ≠ "" then some g.id
    else none)

/-- The user email a granted entity contributes, if any. -/
def entityUserEmail (ent : GrantedEntity) : Option String := userEmailOf ent.user

/-- All group identifiers an entity contributes, in insertion order. -/
def entityGroupIds (env : GraphEnv) (ent : GrantedEntity) : List String :=
  (siteGroupIdOf ent.siteGroup).toList ++ (groupMailOf env ent.group).toList

/-- The granted entities of an entry, in processing order. -/
def entryEntities (e : PermissionEntry) : List GrantedEntity :=
  e.grantedToV2.toList ++ e.grantedTo.toList ++ e.grantedToIdentities

/-- The user emails an entry contributes. -/
def entryUserEmails (e : PermissionEntry) : List String :=
  (entryEntities e).filterMap entityUserEmail

/-- The group identifiers an entry contributes. -/
def entryGroupIds (env : GraphEnv) (e : PermissionEntry) : List String :=
  (entryEntities e).flatMap (entityGroupIds env)

theorem mem_setAdd (l : List String) (x y : String) :
    y ∈ setAdd l x ↔ y ∈ l ∨ y = x := by
  by_cases h : x ∈ l
  · simp only [setAdd, if_pos h]
    constructor
    · exact Or.inl
    · rintro (h1 | rfl)
      · exact h1
      · exact h
  · simp [setAdd, if_neg h]

/-- The three facet steps only touch the fields they are about. -/
theorem pgeUserStep_users (r : PermRecord) (u : Option UserInfo) :
    (pgeUserStep r u).users =
      (match userEmailOf u with
       | some e => setAdd r.users e
       | none => r.users) := by
  cases u with
  | none => rfl
  | some uu =>
    simp only [pgeUserStep, userEmailOf, Option.bind]
    split_ifs <;> rfl

theorem pgeUserStep_rest (r : PermRecord) (u : Option UserInfo) :
    (pgeUserStep r u).groups = r.groups ∧
    (pgeUserStep r u).access_level = r.access_level ∧
    (pgeUserStep r u).inheritance = r.inheritance ∧
    (pgeUserStep r u).sharing_links = r.sharing_links := by
  cases u with
  | none => exact ⟨rfl, rfl, rfl, rfl⟩
  | some uu =>
    simp only [pgeUserStep]
    split_ifs <;> exact ⟨rfl, rfl, rfl, rfl⟩

theorem pgeSiteGroupStep_groups (r : PermRecord) (sg : Option SiteGroupInfo) :
    (pgeSiteGroupStep r sg).groups =
      (match siteGroupIdOf sg with
       | some gid => setAdd r.groups gid
       | none => r.groups) := by
  cases sg with
  | none => rfl
  | some s =>
    simp only [pgeSiteGroupStep, siteGroupIdOf, Option.bind]
    split_ifs <;> rfl

theorem pgeSiteGroupStep_rest (r : PermRecord) (sg : Option SiteGroupInfo) :
    (pgeSiteGroupStep r sg).users = r.users ∧
    (pgeSiteGroupStep r sg).access_level = r.access_level ∧
    (pgeSiteGroupStep r sg).inheritance = r.inheritance ∧
    (pgeSiteGroupStep r sg).sharing_links = r.sharing_links := by
  cases sg with
  | none => exact ⟨rfl, rfl, rfl, rfl⟩
  | some s =>
    simp only [pgeSiteGroupStep]
    split_ifs <;> exact ⟨rfl, rfl, rfl, rfl⟩

theorem pgeGroupStep_groups (env : GraphEnv) (r : PermRecord) (g : Option GroupInfo) :
    (pgeGroupStep env r g).groups =
      (match groupMailOf env g with
       | some gid => setAdd r.groups gid
       | none => r.groups) := by
  cases g with
  | none => rfl
  | some gg =>
    simp only [pgeGroupStep, groupMailOf, Option.bind]
    split_ifs <;> rfl

theorem pgeGroupStep_rest (env : GraphEnv) (r : PermRecord) (g : Option GroupInfo) :
    (pgeGroupStep env r g).users = r.users ∧
    (pgeGroupStep env r g).access_level = r.access_level ∧
    (pgeGroupStep env r g).inheritance = r.inheritance ∧
    (pgeGroupStep env r g).sharing_links = r.sharing_links := by
  cases g with
  | none => exact ⟨rfl, rfl, rfl, rfl⟩
  | some gg =>
    simp only [pgeGroupStep]
    split_ifs <;> exact ⟨rfl, rfl, rfl, rfl⟩

/-- Facets of `process_granted_entity`: it only touches `users` and
`groups`, adding exactly the entity's contributions. -/
theorem pge_users (env : GraphEnv) (ent : GrantedEntity) (r : PermRecord) :
    (process_granted_entity env ent r).users =
      (match entityUserEmail ent with
       | some e => setAdd r.users e
       | none => r.users) := by
  unfold process_granted_entity entityUserEmail
  rw [(pgeGroupStep_rest env _ ent.group).1, (pgeSiteGroupStep_rest _ ent.siteGroup).1,
    pgeUserStep_users]

theorem pge_groups (env : GraphEnv) (ent : GrantedEntity) (r : PermRecord) :
    (process_granted_entity env ent r).groups =
      (entityGroupIds env ent).foldl setAdd r.groups := by
  unfold process_granted_entity entityGroupIds
  rw [pgeGroupStep_groups, pgeSiteGroupStep_groups, (pgeUserStep_rest r ent.user).1]
  cases siteGroupIdOf ent.siteGroup <;> cases groupMailOf env ent.group <;>
    simp [Option.toList]

theorem pge_access_level (env : GraphEnv) (ent : GrantedEntity) (r : PermRecord) :
    (process_granted_entity env ent r).access_level = r.access_level := by
  unfold process_granted_entity
  rw [(pgeGroupStep_rest env _ ent.group).2.1, (pgeSiteGroupStep_rest _ ent.siteGroup).2.1,
    (pgeUserStep_rest r ent.user).2.1]

theorem pge_inheritance (env : GraphEnv) (ent : GrantedEntity) (r : PermRecord) :
    (process_granted_entity env ent r).inheritance = r.inheritance := by
  unfold process_granted_entity
  rw [(pgeGroupStep_rest env _ ent.group).2.2.1, (pgeSiteGroupStep_rest _ ent.siteGroup).2.2.1,
    (pgeUserStep_rest r ent.user).2.2.1]

theorem pge_sharing_links (env : GraphEnv) (ent : GrantedEntity) (r : PermRecord) :
    (process_granted_entity env ent r).sharing_links = r.sharing_links := by
  unfold process_granted_entity
  rw [(pgeGroupStep_rest env _ ent.group).2.2.2, (pgeSiteGroupStep_rest _ ent.siteGroup).2.2.2,
    (pgeUserStep_rest r ent.user).2.2.2]

/-- Facets of the link step. -/
theorem pel_users (r : PermRecord) (lnk : Option LinkInfo) :
    (process_entry_link r lnk).users = r.users := by
  cases lnk with
  | none => rfl
  | some l =>
    simp only [process_entry_link]
    split_ifs <;> rfl

theorem pel_groups (r : PermRecord) (lnk : Option LinkInfo) :
    (process_entry_link r lnk).groups = r.groups := by
  cases lnk with
  | none => rfl
  | some l =>
    simp only [process_entry_link]
    split_ifs <;> rfl

theorem pel_inheritance (r : PermRecord) (lnk : Option LinkInfo) :
    (process_entry_link r lnk).inheritance = r.inheritance := by
  cases lnk with
  | none => rfl
  | some l =>
    simp only [process_entry_link]
    split_ifs <;> rfl

theorem pel_sharing_links (r : PermRecord) (lnk : Option LinkInfo) :
    (process_entry_link r lnk).sharing_links =
      r.sharing_links ++ (lnk.map linkToSL).toList := by
  cases lnk with
  | none => simp [process_entry_link, Option.toList]
  | some l =>
    simp only [process_entry_link, linkToSL, Option.map, Option.toList]
    split_ifs <;> rfl

theorem pel_access_level (r : PermRecord) (lnk : Option LinkInfo) :
    (process_entry_link r lnk).access_level =
      (match lnk.map linkToSL with
       | some sl => slStep r.access_level sl
       | none => r.access_level) := by
  cases lnk with
  | none => rfl
  | some l =>
    simp only [process_entry_link, slStep, linkToSL, Option.map]
    split_ifs <;> rfl

theorem foldl_setAdd_mem (l : List String) : ∀ (g : List String) (y : String),
    y ∈ l.foldl setAdd g ↔ y ∈ g ∨ y ∈ l
  | g, y => by
    induction l generalizing g with
    | nil => simp
    | cons x rest ih =>
      simp only [List.foldl_cons, ih, mem_setAdd, List.mem_cons]
      tauto

theorem optPge_users_mem (env : GraphEnv) (o : Option GrantedEntity) (r : PermRecord)
    (y : String) :
    y ∈ (match o with
         | some ent => process_granted_entity env ent r
         | none => r).users ↔
      y ∈ r.users ∨ y ∈ o.toList.filterMap entityUserEmail := by
  cases o with
  | none => simp
  | some ent =>
    rw [show (match some ent with
         | some ent => process_granted_entity env ent r
         | none => r) = process_granted_entity env ent r from rfl]
    rw [pge_users]
    cases he : entityUserEmail ent <;>
      simp [he, mem_setAdd, Option.toList]

theorem optPge_groups_mem (env : GraphEnv) (o : Option GrantedEntity) (r : PermRecord)
    (y : String) :
    y ∈ (match o with
         | some ent => process_granted_entity env ent r
         | none => r).groups ↔
      y ∈ r.groups ∨ y ∈ o.toList.flatMap (entityGroupIds env) := by
  cases o with
  | none => simp
  | some ent =>
    rw [show (match some ent with
         | some ent => process_granted_entity env ent r
         | none => r) = process_granted_entity env ent r from rfl]
    rw [pge_groups, foldl_setAdd_mem]
    simp [Option.toList]

theorem optPge_rest (env : GraphEnv) (o : Option GrantedEntity) (r : PermRecord) :
    (match o with
     | some ent => process_granted_entity env ent r
     | none => r).access_level = r.access_level ∧
    (match o with
     | some ent => process_granted_entity env ent r
     | none => r).inheritance = r.inheritance ∧
    (match o with
     | some ent => process_granted_entity env ent r
     | none => r).sharing_links = r.sharing_links := by
  cases o with
  | none => exact ⟨rfl, rfl, rfl⟩
  | some ent =>
    exact ⟨pge_access_level env ent r, pge_inheritance env ent r, pge_sharing_links env ent r⟩

theorem fold_pge_users_mem (env : GraphEnv) (ents : List GrantedEntity) :
    ∀ (r : PermRecord) (y : String),
      y ∈ (ents.foldl (fun r e => process_granted_entity env e r) r).users ↔
        y ∈ r.users ∨ y ∈ ents.filterMap entityUserEmail := by
  induction ents with
  | nil => simp
  | cons ent rest ih =>
    intro r y
    simp only [List.foldl_cons, ih, pge_users]
    cases he : entityUserEmail ent <;>
      (simp [he, mem_setAdd, List.filterMap_cons]; try tauto)

theorem fold_pge_groups_mem (env : GraphEnv) (ents : List GrantedEntity) :
    ∀ (r : PermRecord) (y : String),
      y ∈ (ents.foldl (fun r e => process_granted_entity env e r) r).groups ↔
        y ∈ r.groups ∨ y ∈ ents.flatMap (entityGroupIds env) := by
  induction ents with
  | nil => simp
  | cons ent rest ih =>
    intro r y
    simp only [List.foldl_cons, ih, pge_groups, foldl_setAdd_mem]
    simp [List.flatMap_cons]
    tauto

theorem fold_pge_rest (env : GraphEnv) (ents : List GrantedEntity) :
    ∀ (r : PermRecord),
      (ents.foldl (fun r e => process_granted_entity env e r) r).access_level = r.access_level ∧
      (ents.foldl (fun r e => process_granted_entity env e r) r).inheritance = r.inheritance ∧
      (ents.foldl (fun r e => process_granted_entity env e r) r).sharing_links =
        r.sharing_links := by
  induction ents with
  | nil => exact fun r => ⟨rfl, rfl, rfl⟩
  | cons ent rest ih =>
    intro r
    simp only [List.foldl_cons]
    refine ⟨?_, ?_, ?_⟩
    · rw [(ih _).1, pge_access_level]
    · rw [(ih _).2.1, pge_inheritance]
    · rw [(ih _).2.2, pge_sharing_links]

theorem ifInh_fields (b : Bool) (r : PermRecord) :
    (if b then { r with inheritance := true } else r).users = r.users ∧
    (if b then { r with inheritance := true } else r).groups = r.groups ∧
    (if b then { r with inheritance := true } else r).access_level = r.access_level ∧
    (if b then { r with inheritance := true } else r).sharing_links = r.sharing_links ∧
    (if b then { r with inheritance := true } else r).inheritance = (r.inheritance || b) := by
  cases b <;> simp

/-- `process_permission_entry` adds exactly the entry's user emails. -/
theorem ppe_users_mem (env : GraphEnv) (r : PermRecord) (e : PermissionEntry) (y : String) :
    y ∈ (process_permission_entry env r e).users ↔
      y ∈ r.users ∨ y ∈ entryUserEmails e := by
  unfold process_permission_entry
  rw [(ifInh_fields _ _).1, fold_pge_users_mem, optPge_users_mem, optPge_users_mem, pel_users]
  simp only [entryUserEmails, entryEntities, List.filterMap_append, List.mem_append]
  tauto

/-- `process_permission_entry` adds exactly the entry's group identifiers. -/
theorem ppe_groups_mem (env : GraphEnv) (r : PermRecord) (e : PermissionEntry) (y : String) :
    y ∈ (process_permission_entry env r e).groups ↔
      y ∈ r.groups ∨ y ∈ entryGroupIds env e := by
  unfold process_permission_entry
  rw [(ifInh_fields _ _).2.1, fold_pge_groups_mem, optPge_groups_mem, optPge_groups_mem,
    pel_groups]
  simp only [entryGroupIds, entryEntities, List.flatMap_append, List.mem_append]
  tauto

/-- `process_permission_entry` latches the inheritance flag. -/
theorem ppe_inheritance (env : GraphEnv) (r : PermRecord) (e : PermissionEntry) :
    (process_permission_entry env r e).inheritance = (r.inheritance || e.inheritedFrom) := by
  unfold process_permission_entry
  rw [(ifInh_fields _ _).2.2.2.2, (fold_pge_rest env _ _).2.1, (optPge_rest env _ _).2.1,
    (optPge_rest env _ _).2.1, pel_inheritance]

/-- `process_permission_entry` appends exactly the entry's sharing link. -/
theorem ppe_sharing_links (env : GraphEnv) (r : PermRecord) (e : PermissionEntry) :
    (process_permission_entry env r e).sharing_links =
      r.sharing_links ++ (entrySharingLink e).toList := by
  unfold process_permission_entry
  rw [(ifInh_fields _ _).2.2.2.1, (fold_pge_rest env _ _).2.2, (optPge_rest env _ _).2.2,
    (optPge_rest env _ _).2.2, pel_sharing_links, entrySharingLink]

/-- `process_permission_entry` escalates the level by the entry's link
scope. -/
theorem ppe_access_level (env : GraphEnv) (r : PermRecord) (e : PermissionEntry) :
    (process_permission_entry env r e).access_level =
      (match entrySharingLink e with
       | some sl => slStep r.access_level sl
       | none => r.access_level) := by
  unfold process_permission_entry
  rw [(ifInh_fields _ _).2.2.1, (fold_pge_rest env _ _).1, (optPge_rest env _ _).1,
    (optPge_rest env _ _).1, pel_access_level, entrySharingLink]

theorem entriesFold_users_mem (env : GraphEnv) (entries : List PermissionEntry) :
    ∀ (r : PermRecord) (y : String),
      y ∈ (entries.foldl (process_permission_entry env) r).users ↔
        y ∈ r.users ∨ ∃ e ∈ entries, y ∈ entryUserEmails e := by
  induction entries with
  | nil => simp
  | cons e rest ih =>
    intro r y
    simp only [List.foldl_cons, ih, ppe_users_mem, List.mem_cons]
    constructor
    · rintro ((h | h) | ⟨e2, he2, hy⟩)
      · exact Or.inl h
      · exact Or.inr ⟨e, Or.inl rfl, h⟩
      · exact Or.inr ⟨e2, Or.inr he2, hy⟩
    · rintro (h | ⟨e2, (rfl | he2), hy⟩)
      · exact Or.inl (Or.inl h)
      · exact Or.inl (Or.inr hy)
      · exact Or.inr ⟨e2, he2, hy⟩

theorem entriesFold_groups_mem (env : GraphEnv) (entries : List PermissionEntry) :
    ∀ (r : PermRecord) (y : String),
      y ∈ (entries.foldl (process_permission_entry env) r).groups ↔
        y ∈ r.groups ∨ ∃ e ∈ entries, y ∈ entryGroupIds env e := by
  induction entries with
  | nil => simp
  | cons e rest ih =>
    intro r y
    simp only [List.foldl_cons, ih, ppe_groups_mem, List.mem_cons]
    constructor
    · rintro ((h | h) | ⟨e2, he2, hy⟩)
      · exact Or.inl h
      · exact Or.inr ⟨e, Or.inl rfl, h⟩
      · exact Or.inr ⟨e2, Or.inr he2, hy⟩
    · rintro (h | ⟨e2, (rfl | he2), hy⟩)
      · exact Or.inl (Or.inl h)
      · exact Or.inl (Or.inr hy)
      · exact Or.inr ⟨e2, he2, hy⟩

theorem entriesFold_inheritance (env : GraphEnv) (entries : List PermissionEntry) :
    ∀ (r : PermRecord),
      (entries.foldl (process_permission_entry env) r).inheritance =
        (r.inheritance || entries.any (fun e => e.inheritedFrom)) := by
  induction entries with
  | nil => simp
  | cons e rest ih =>
    intro r
    simp only [List.foldl_cons, ih, ppe_inheritance, List.any_cons, Bool.or_assoc]

theorem entriesFold_sharing_links (env : GraphEnv) (entries : List PermissionEntry) :
    ∀ (r : PermRecord),
      (entries.foldl (process_permission_entry env) r).sharing_links =
        r.sharing_links ++ entries.filterMap entrySharingLink := by
  induction entries with
  | nil => simp
  | cons e rest ih =>
    intro r
    simp only [List.foldl_cons, ih, ppe_sharing_links]
    cases he : entrySharingLink e <;>
      simp [he, List.filterMap_cons]

theorem entriesFold_access_level (env : GraphEnv) (entries : List PermissionEntry) :
    ∀ (r : PermRecord),
      (entries.foldl (process_permission_entry env) r).access_level =
        (entries.filterMap entrySharingLink).foldl slStep r.access_level := by
  induction entries with
  | nil => simp
  | cons e rest ih =>
    intro r
    simp only [List.foldl_cons, ih, ppe_access_level]
    cases he : entrySharingLink e <;>
      simp [he, List.filterMap_cons]

/-- The per-entry scope fold leaves a level untouched when no anonymous or
organization link occurs. -/
theorem slStep_fold_id (sls : List SharingLink) :
    ∀ (a : String), anyAnonSL sls = false → anyOrgSL sls = false →
      sls.foldl slStep a = a := by
  induction sls with
  | nil => intro a _ _; rfl
  | cons sl rest ih =>
    intro a hanon horg
    simp only [anyAnonSL, List.any_cons, Bool.or_eq_false_iff] at hanon
    simp only [anyOrgSL, List.any_cons, Bool.or_eq_false_iff] at horg
    simp only [List.foldl_cons, slStep]
    rw [if_neg (by simpa using hanon.1), if_neg (by simpa using horg.1)]
    exact ih a hanon.2 horg.2

/-- The per-entry scope fold yields `public` only from an anonymous link or
an already-public start. -/
theorem slStep_fold_public (sls : List SharingLink) :
    ∀ (a : String), sls.foldl slStep a = "public" →
      anyAnonSL sls = true ∨ a = "public" := by
  induction sls with
  | nil => intro a h; exact Or.inr h
  | cons sl rest ih =>
    intro a h
    simp only [List.foldl_cons, slStep] at h
    simp only [anyAnonSL, List.any_cons, Bool.or_eq_true]
    by_cases hanon : sl.scope = "anonymous"
    · exact Or.inl (Or.inl (by simpa using hanon))
    · rw [if_neg hanon] at h
      by_cases horg : sl.scope = "organization"
      · rw [if_pos horg] at h
        rcases ih _ h with hrec | hrec
        · exact Or.inl (Or.inr hrec)
        · exact absurd hrec (by decide)
      · rw [if_neg horg] at h
        rcases ih _ h with hrec | hrec
        · exact Or.inl (Or.inr hrec)
        · exact Or.inr hrec

/-- Closed form of the post-loop over sharing links
(document_permission.py:91-97). -/
theorem linksPostLoop_closed (sls : List SharingLink) :
    ∀ (a : String), linksPostLoop a sls =
      (if anyAnonSL sls then "public"
       else if a = "public" then "public"
       else if anyOrgSL sls then "organization"
       else a) := by
  induction sls with
  | nil =>
    intro a
    simp only [linksPostLoop, anyAnonSL, anyOrgSL, List.any_nil, Bool.false_eq_true, if_false]
    split_ifs with h
    · exact h
    · rfl
  | cons sl rest ih =>
    intro a
    by_cases hanon : sl.scope = "anonymous"
    · have h1 : anyAnonSL (sl :: rest) = true := by simp [anyAnonSL, hanon]
      rw [show linksPostLoop a (sl :: rest) = "public" from by
        simp only [linksPostLoop]; rw [if_pos hanon]]
      rw [h1]
      simp
    · have hanonEq : anyAnonSL (sl :: rest) = anyAnonSL rest := by
        simp [anyAnonSL, hanon]
      by_cases horg : sl.scope = "organization" ∧ a ≠ "public"
      · have hstep : linksPostLoop a (sl :: rest) = linksPostLoop "organization" rest := by
          simp only [linksPostLoop]
          rw [if_neg hanon, if_pos horg]
        have horgEq : anyOrgSL (sl :: rest) = true := by simp [anyOrgSL, horg.1]
        rw [hstep, ih, hanonEq, horgEq]
        by_cases hrest : anyAnonSL rest = true
        · rw [hrest]
          simp
        · have hf : anyAnonSL rest = false := by simpa using hrest
          rw [hf]
          simp only [Bool.false_eq_true, if_false, if_true]
          rw [if_neg (by decide : ¬("organization" : String) = "public"),
            if_neg horg.2]
          split_ifs <;> rfl
      · have hstep : linksPostLoop a (sl :: rest) = linksPostLoop a rest := by
          simp only [linksPostLoop]
          rw [if_neg hanon, if_neg horg]
        rw [hstep, ih, hanonEq]
        rcases not_and_or.mp horg with h1 | h2
        · have horgEq : anyOrgSL (sl :: rest) = anyOrgSL rest := by
            simp [anyOrgSL, h1]
          rw [horgEq]
        · have ha : a = "public" := not_not.mp h2
          subst ha
          split_ifs <;> first
            | rfl
            | exact absurd rfl ‹¬"public" = "public"›

/-- Field projections of `aggregateEntries` through its post-processing. -/
theorem linksPostStep_fields (r : PermRecord) :
    (linksPostStep r).users = r.users ∧
    (linksPostStep r).groups = r.groups ∧
    (linksPostStep r).inheritance = r.inheritance ∧
    (linksPostStep r).sharing_links = r.sharing_links ∧
    (linksPostStep r).access_level =
      (if r.sharing_links ≠ [] then linksPostLoop r.access_level r.sharing_links
       else r.access_level) := by
  unfold linksPostStep
  split_ifs <;> exact ⟨rfl, rfl, rfl, rfl, rfl⟩

theorem restrictedUpgradeStep_fields (r : PermRecord) :
    (restrictedUpgradeStep r).users = r.users ∧
    (restrictedUpgradeStep r).groups = r.groups ∧
    (restrictedUpgradeStep r).inheritance = r.inheritance ∧
    (restrictedUpgradeStep r).sharing_links = r.sharing_links ∧
    (restrictedUpgradeStep r).access_level =
      (if r.users ≠ [] ∨ r.groups ≠ [] then
        (if r.access_level = "private" then "restricted" else r.access_level)
       else r.access_level) := by
  unfold restrictedUpgradeStep
  split_ifs <;> exact ⟨rfl, rfl, rfl, rfl, rfl⟩

theorem aggregateEntries_fields (env : GraphEnv) (entries : List PermissionEntry) :
    (aggregateEntries env entries).users =
      (entries.foldl (process_permission_entry env) aggInit).users ∧
    (aggregateEntries env entries).groups =
      (entries.foldl (process_permission_entry env) aggInit).groups ∧
    (aggregateEntries env entries).inheritance =
      (entries.foldl (process_permission_entry env) aggInit).inheritance ∧
    (aggregateEntries env entries).sharing_links =
      (entries.foldl (process_permission_entry env) aggInit).sharing_links := by
  unfold aggregateEntries
  refine ⟨?_, ?_, ?_, ?_⟩
  · rw [(restrictedUpgradeStep_fields _).1, (linksPostStep_fields _).1]
  · rw [(restrictedUpgradeStep_fields _).2.1, (linksPostStep_fields _).2.1]
  · rw [(restrictedUpgradeStep_fields _).2.2.1, (linksPostStep_fields _).2.2.1]
  · rw [(restrictedUpgradeStep_fields _).2.2.2.1, (linksPostStep_fields _).2.2.2.1]

/-- Membership in the aggregated user set: exactly the entries'
contributions. -/
theorem aggregate_users_mem (env : GraphEnv) (entries : List PermissionEntry) (y : String) :
    y ∈ (aggregateEntries env entries).users ↔ ∃ e ∈ entries, y ∈ entryUserEmails e := by
  rw [(aggregateEntries_fields env entries).1, entriesFold_users_mem]
  simp [aggInit]

/-- Membership in the aggregated group set: exactly the entries'
contributions. -/
theorem aggregate_groups_mem (env : GraphEnv) (entries : List PermissionEntry) (y : String) :
    y ∈ (aggregateEntries env entries).groups ↔ ∃ e ∈ entries, y ∈ entryGroupIds env e := by
  rw [(aggregateEntries_fields env entries).2.1, entriesFold_groups_mem]
  simp [aggInit]

/-- The aggregated inheritance flag: set exactly when some entry was
inherited. -/
theorem aggregate_inheritance (env : GraphEnv) (entries : List PermissionEntry) :
    (aggregateEntries env entries).inheritance = entries.any (fun e => e.inheritedFrom) := by
  rw [(aggregateEntries_fields env entries).2.2.1, entriesFold_inheritance]
  simp [aggInit]

/-- The recorded sharing links, in entry order. -/
theorem aggregate_sharing_links (env : GraphEnv) (entries : List PermissionEntry) :
    (aggregateEntries env entries).sharing_links = entries.filterMap entrySharingLink := by
  rw [(aggregateEntries_fields env entries).2.2.2, entriesFold_sharing_links]
  simp [aggInit]

/-- Closed form of the aggregated access level: `public` if any anonymous
link, else `organization` if any organization link, else `restricted` when
direct user/group grants exist, else `private`. -/
theorem aggregate_access_level_closed (env : GraphEnv) (entries : List PermissionEntry) :
    (aggregateEntries env entries).access_level =
      (if anyAnonSL (entries.filterMap entrySharingLink) then "public"
       else if anyOrgSL (entries.filterMap entrySharingLink) then "organization"
       else if (aggregateEntries env entries).users ≠ [] ∨
           (aggregateEntries env entries).groups ≠ [] then "restricted"
       else "private") := by
  have hFsl : (entries.foldl (process_permission_entry env) aggInit).sharing_links =
      entries.filterMap entrySharingLink := by
    rw [entriesFold_sharing_links]
    simp [aggInit]
  have hFlvl : (entries.foldl (process_permission_entry env) aggInit).access_level =
      (entries.filterMap entrySharingLink).foldl slStep "private" := by
    rw [entriesFold_access_level]
    rfl
  have husers := (aggregateEntries_fields env entries).1
  have hgroups := (aggregateEntries_fields env entries).2.1
  -- pre-restricted level after the post-loop
  have hmid : (if (entries.foldl (process_permission_entry env) aggInit).sharing_links ≠ [] then
      linksPostLoop (entries.foldl (process_permission_entry env) aggInit).access_level
        (entries.foldl (process_permission_entry env) aggInit).sharing_links
      else (entries.foldl (process_permission_entry env) aggInit).access_level) =
      (if anyAnonSL (entries.filterMap entrySharingLink) then "public"
       else if anyOrgSL (entries.filterMap entrySharingLink) then "organization"
       else "private") := by
    rw [hFsl, hFlvl]
    by_cases hE : entries.filterMap entrySharingLink = []
    · rw [hE]
      simp [anyAnonSL, anyOrgSL]
    · rw [if_pos hE, linksPostLoop_closed]
      by_cases hanon : anyAnonSL (entries.filterMap entrySharingLink) = true
      · rw [if_pos hanon, if_pos hanon]
      · have hanonf : anyAnonSL (entries.filterMap entrySharingLink) = false := by
          simpa using hanon
        rw [hanonf]
        simp only [Bool.false_eq_true, if_false]
        have hnp : ¬((entries.filterMap entrySharingLink).foldl slStep "private" = "public") := by
          intro hc
          rcases slStep_fold_public _ _ hc with h | h
          · rw [hanonf] at h
            exact Bool.false_ne_true h
          · exact absurd h (by decide)
        rw [if_neg hnp]
        by_cases horg : anyOrgSL (entries.filterMap entrySharingLink) = true
        · rw [if_pos horg, if_pos horg]
        · have horgf : anyOrgSL (entries.filterMap entrySharingLink) = false := by
            simpa using horg
          rw [horgf]
          simp only [Bool.false_eq_true, if_false]
          exact slStep_fold_id _ _ hanonf horgf
  -- now unfold the aggregation's post-processing
  rw [husers, hgroups]
  unfold aggregateEntries
  rw [(restrictedUpgradeStep_fields _).2.2.2.2, (linksPostStep_fields _).1,
    (linksPostStep_fields _).2.1, (linksPostStep_fields _).2.2.2.2, hmid]
  by_cases hug : (entries.foldl (process_permission_entry env) aggInit).users ≠ [] ∨
      (entries.foldl (process_permission_entry env) aggInit).groups ≠ []
  · rw [if_pos hug, if_pos hug]
    by_cases hanon : anyAnonSL (entries.filterMap entrySharingLink) = true
    · rw [if_pos hanon, if_pos hanon,
        if_neg (by decide : ¬("public" : String) = "private")]
    · have hanonf : anyAnonSL (entries.filterMap entrySharingLink) = false := by
        simpa using hanon
      rw [hanonf]
      simp only [Bool.false_eq_true, if_false]
      by_cases horg : anyOrgSL (entries.filterMap entrySharingLink) = true
      · rw [if_pos horg,
          if_neg (by decide : ¬("organization" : String) = "private"), if_pos horg]
      · have horgf : anyOrgSL (entries.filterMap entrySharingLink) = false := by
          simpa using horg
        rw [horgf]
        simp only [Bool.false_eq_true, if_false]
        simp
  · rw [if_neg hug, if_neg hug]

/-- C2: a raw permission list containing an anonymous-scope sharing link
aggregates to `access_level = "public"`, whatever else is present and in
whatever order, whenever the permissions fetch (and the preceding token
acquisition) succeeds. -/
theorem anonymous_link_forces_public (env : GraphEnv) (entries : List PermissionEntry)
    (tok : String)
    (htok : env.get_access_token = .ok tok)
    (hfetch : env.permissionsFetch = .ok entries)
    (hanon : ∃ e ∈ entries, ∃ l, e.link = some l ∧ l.scope = "anonymous") :
    get_document_permissions env = .ok (aggregateEntries env entries) ∧
    (aggregateEntries env entries).access_level = "public" := by
  constructor
  · simp [get_document_permissions, htok, hfetch]
  · rw [aggregate_access_level_closed]
    obtain ⟨e, he, l, hl, hs⟩ := hanon
    have hmem : linkToSL l ∈ entries.filterMap entrySharingLink :=
      List.mem_filterMap.mpr ⟨e, he, by simp [entrySharingLink, hl]⟩
    have hany : anyAnonSL (entries.filterMap entrySharingLink) = true :=
      List.any_eq_true.mpr ⟨linkToSL l, hmem, by simp [linkToSL, hs]⟩
    rw [hany]
    simp

/-- A raw entry carrying an organization-scope link. -/
def sampleOrgEntry : PermissionEntry :=
  ⟨some ⟨"organization", "view", "u1", ""⟩, none, none, [], false⟩

/-- A raw entry carrying an anonymous-scope link. -/
def sampleAnonEntry : PermissionEntry :=
  ⟨some ⟨"anonymous", "view", "u2", ""⟩, none, none, [], false⟩

/-- A raw entry granting a user directly, with inheritance. -/
def sampleUserEntry : PermissionEntry :=
  ⟨none, some ⟨some ⟨"A@b.com "⟩, none, none⟩, none, [], true⟩

/-- A Graph environment whose fetch returns an organization link followed
by an anonymous link. -/
def sampleGraphEnv : GraphEnv :=
  ⟨.ok "tok", .ok [sampleOrgEntry, sampleAnonEntry], fun _ => ⟨"", ""⟩⟩

/-- Witness for C2: the anonymous link wins even when listed after an
organization link. -/
theorem anonymous_link_forces_public_witness :
    get_document_permissions sampleGraphEnv =
      .ok (aggregateEntries sampleGraphEnv [sampleOrgEntry, sampleAnonEntry]) ∧
    (aggregateEntries sampleGraphEnv [sampleOrgEntry, sampleAnonEntry]).access_level =
      "public" :=
  anonymous_link_forces_public sampleGraphEnv [sampleOrgEntry, sampleAnonEntry] "tok" rfl rfl
    ⟨sampleAnonEntry, List.mem_cons_of_mem _ (List.mem_cons_self _ _),
      ⟨"anonymous", "view", "u2", ""⟩, rfl, rfl⟩

/-- C10: permuting the raw entries leaves the aggregated access level, the
set of users, the set of groups and the inheritance flag unchanged (only
`sharing_links` may be reordered), and the final level follows the
public > organization > restricted > private classification. -/
theorem aggregation_permutation_invariant (env : GraphEnv)
    (entries entries2 : List PermissionEntry) (hperm : entries.Perm entries2) :
    (aggregateEntries env entries).access_level =
      (aggregateEntries env entries2).access_level ∧
    (∀ y, y ∈ (aggregateEntries env entries).users ↔
      y ∈ (aggregateEntries env entries2).users) ∧
    (∀ y, y ∈ (aggregateEntries env entries).groups ↔
      y ∈ (aggregateEntries env entries2).groups) ∧
    (aggregateEntries env entries).inheritance =
      (aggregateEntries env entries2).inheritance ∧
    (aggregateEntries env entries).access_level =
      (if anyAnonSL (entries.filterMap entrySharingLink) then "public"
       else if anyOrgSL (entries.filterMap entrySharingLink) then "organization"
       else if (aggregateEntries env entries).users ≠ [] ∨
           (aggregateEntries env entries).groups ≠ [] then "restricted"
       else "private") := by
  have husers : ∀ y, y ∈ (aggregateEntries env entries).users ↔
      y ∈ (aggregateEntries env entries2).users := by
    intro y
    simp only [aggregate_users_mem]
    exact ⟨fun ⟨e, he, hy⟩ => ⟨e, hperm.mem_iff.mp he, hy⟩,
      fun ⟨e, he, hy⟩ => ⟨e, hperm.mem_iff.mpr he, hy⟩⟩
  have hgroups : ∀ y, y ∈ (aggregateEntries env entries).groups ↔
      y ∈ (aggregateEntries env entries2).groups := by
    intro y
    simp only [aggregate_groups_mem]
    exact ⟨fun ⟨e, he, hy⟩ => ⟨e, hperm.mem_iff.mp he, hy⟩,
      fun ⟨e, he, hy⟩ => ⟨e, hperm.mem_iff.mpr he, hy⟩⟩
  have hanonEq : anyAnonSL (entries.filterMap entrySharingLink) =
      anyAnonSL (entries2.filterMap entrySharingLink) := by
    apply Bool.eq_iff_iff.mpr
    simp only [anyAnonSL, List.any_eq_true]
    exact ⟨fun ⟨sl, hm, hp⟩ => ⟨sl, (hperm.filterMap _).mem_iff.mp hm, hp⟩,
      fun ⟨sl, hm, hp⟩ => ⟨sl, (hperm.filterMap _).mem_iff.mpr hm, hp⟩⟩
  have horgEq : anyOrgSL (entries.filterMap entrySharingLink) =
      anyOrgSL (entries2.filterMap entrySharingLink) := by
    apply Bool.eq_iff_iff.mpr
    simp only [anyOrgSL, List.any_eq_true]
    exact ⟨fun ⟨sl, hm, hp⟩ => ⟨sl, (hperm.filterMap _).mem_iff.mp hm, hp⟩,
      fun ⟨sl, hm, hp⟩ => ⟨sl, (hperm.filterMap _).mem_iff.mpr hm, hp⟩⟩
  have hcond : ((aggregateEntries env entries).users ≠ [] ∨
      (aggregateEntries env entries).groups ≠ []) =
      ((aggregateEntries env entries2).users ≠ [] ∨
        (aggregateEntries env entries2).groups ≠ []) := by
    apply propext
    apply or_congr
    · constructor
      · intro h hc
        apply h
        rw [List.eq_nil_iff_forall_not_mem] at hc ⊢
        exact fun y hy => hc y ((husers y).mp hy)
      · intro h hc
        apply h
        rw [List.eq_nil_iff_forall_not_mem] at hc ⊢
        exact fun y hy => hc y ((husers y).mpr hy)
    · constructor
      · intro h hc
        apply h
        rw [List.eq_nil_iff_forall_not_mem] at hc ⊢
        exact fun y hy => hc y ((hgroups y).mp hy)
      · intro h hc
        apply h
        rw [List.eq_nil_iff_forall_not_mem] at hc ⊢
        exact fun y hy => hc y ((hgroups y).mpr hy)
  have hlvl : (aggregateEntries env entries).access_level =
      (aggregateEntries env entries2).access_level := by
    rw [aggregate_access_level_closed env entries, aggregate_access_level_closed env entries2]
    rw [hanonEq, horgEq]
    simp only [hcond]
  have hinh : (aggregateEntries env entries).inheritance =
      (aggregateEntries env entries2).inheritance := by
    rw [aggregate_inheritance, aggregate_inheritance]
    apply Bool.eq_iff_iff.mpr
    simp only [List.any_eq_true]
    exact ⟨fun ⟨e, he, hp⟩ => ⟨e, hperm.mem_iff.mp he, hp⟩,
      fun ⟨e, he, hp⟩ => ⟨e, hperm.mem_iff.mpr he, hp⟩⟩
  exact ⟨hlvl, husers, hgroups, hinh, aggregate_access_level_closed env entries⟩

/-- Witness for C10 on a two-entry list and its swap. -/
theorem aggregation_permutation_invariant_witness :
    (aggregateEntries sampleGraphEnv [sampleUserEntry, sampleAnonEntry]).access_level =
      (aggregateEntries sampleGraphEnv [sampleAnonEntry, sampleUserEntry]).access_level ∧
    (∀ y, y ∈ (aggregateEntries sampleGraphEnv [sampleUserEntry, sampleAnonEntry]).users ↔
      y ∈ (aggregateEntries sampleGraphEnv [sampleAnonEntry, sampleUserEntry]).users) ∧
    (∀ y, y ∈ (aggregateEntries sampleGraphEnv [sampleUserEntry, sampleAnonEntry]).groups ↔
      y ∈ (aggregateEntries sampleGraphEnv [sampleAnonEntry, sampleUserEntry]).groups) ∧
    (aggregateEntries sampleGraphEnv [sampleUserEntry, sampleAnonEntry]).inheritance =
      (aggregateEntries sampleGraphEnv [sampleAnonEntry, sampleUserEntry]).inheritance ∧
    (aggregateEntries sampleGraphEnv [sampleUserEntry, sampleAnonEntry]).access_level =
      (if anyAnonSL ([sampleUserEntry, sampleAnonEntry].filterMap entrySharingLink) then "public"
       else if anyOrgSL ([sampleUserEntry, sampleAnonEntry].filterMap entrySharingLink) then
         "organization"
       else if (aggregateEntries sampleGraphEnv [sampleUserEntry, sampleAnonEntry]).users ≠ [] ∨
           (aggregateEntries sampleGraphEnv [sampleUserEntry, sampleAnonEntry]).groups ≠ [] then
         "restricted"
       else "private") :=
  aggregation_permutation_invariant sampleGraphEnv [sampleUserEntry, sampleAnonEntry]
    [sampleAnonEntry, sampleUserEntry] (List.Perm.swap sampleAnonEntry sampleUserEntry [])

/-- Witness for C6: a raising token acquisition resolves to `false`. -/
theorem resolver_fail_closed_witness :
    check_user_group_membership ⟨"acme.com", false⟩ ⟨.error "boom", .error "x"⟩ "u@other.com"
      (.arr (["g@x.com"].map .str)) = false :=
  (resolver_fail_closed ⟨"acme.com", false⟩ ⟨.error "boom", .error "x"⟩ "u@other.com"
    ["g@x.com"]).2 (by decide) (Or.inl ⟨"boom", rfl⟩)

/-! ## C1: the access decision follows the access-level case analysis -/

/-- A resolver call on any falsy `authorized_groups` value returns `false`:
iterating a non-iterable raises into the catch-all, and an empty iterable
has no site-group nor azure candidates. -/
theorem cugm_iter_error (settings : Settings) (env : DirectoryEnv) (user_email : String)
    (v : JVal) (e : String) (hiter : pyIterElems v = .error e) :
    check_user_group_membership settings env user_email v = false := by
  have hbody : check_user_group_membership_body settings env user_email v = .error e := by
    unfold check_user_group_membership_body resolver_fast_path
    by_cases hdom : userDomainOf user_email ∈ get_org_domains settings
    · rw [if_pos hdom]
      simp only [Bind.bind, hiter, exceptBindErr]
    · rw [if_neg hdom]
      simp only [Bind.bind, Pure.pure, Except.pure, exceptBindOk, Bool.false_eq_true, if_false,
        hiter, exceptBindErr]
  simp [check_user_group_membership, hbody]

theorem cugm_empty_iterable (settings : Settings) (env : DirectoryEnv) (user_email : String)
    (v : JVal) (hiter : pyIterElems v = .ok []) :
    check_user_group_membership settings env user_email v = false := by
  have hfast : resolver_fast_path settings user_email v = .ok false := by
    unfold resolver_fast_path
    by_cases hdom : userDomainOf user_email ∈ get_org_domains settings
    · rw [if_pos hdom]
      simp [Bind.bind, hiter, exceptBindOk, Pure.pure, Except.pure]
    · rw [if_neg hdom]
      rfl
  have hbody : check_user_group_membership_body settings env user_email v = .ok false := by
    unfold check_user_group_membership_body
    rw [hfast]
    simp only [Bind.bind, exceptBindOk, Bool.false_eq_true, if_false, hiter]
    rfl
  simp [check_user_group_membership, hbody]

/-- Any falsy groups value resolves to `false`. -/
theorem cugm_falsy (settings : Settings) (env : DirectoryEnv) (user_email : String)
    (v : JVal) (hfalsy : pyTruthy v = false) :
    check_user_group_membership settings env user_email v = false := by
  cases v with
  | null => exact cugm_iter_error settings env user_email _ _ rfl
  | bool b => exact cugm_iter_error settings env user_email _ _ rfl
  | num s => exact cugm_iter_error settings env user_email _ _ rfl
  | str s =>
    have hs : s = "" := by
      simpa [pyTruthy] using hfalsy
    subst hs
    exact cugm_empty_iterable settings env user_email _ rfl
  | arr l =>
    have hl : l = [] := by
      simp only [pyTruthy, Bool.not_eq_false'] at hfalsy
      exact List.isEmpty_iff.mp hfalsy
    subst hl
    exact cugm_empty_iterable settings env user_email _ rfl
  | obj l =>
    have hl : l = [] := by
      simp only [pyTruthy, Bool.not_eq_false'] at hfalsy
      exact List.isEmpty_iff.mp hfalsy
    subst hl
    exact cugm_empty_iterable settings env user_email _ rfl

/-- Substring search for a single character is list membership. -/
theorem charsIsInfix_singleton (c : Char) (cs : List Char) :
    charsIsInfix [c] cs = cs.contains c := by
  induction cs with
  | nil => rfl
  | cons h rest ih =>
    by_cases hc : c = h
    · subst hc
      simp [charsIsInfix, charsIsPrefix]
    · simp [charsIsInfix, charsIsPrefix, ih, hc, Ne.symm hc]

theorem pyStrContains_at (s : String) :
    pyStrContains s "@" = s.data.contains '@' := by
  unfold pyStrContains
  rw [show ("@" : String).data = ['@'] from rfl, charsIsInfix_singleton]

/-- Splitting a one-`@` email at `@` yields its two parts. -/
theorem pySplitChar_go_no_sep (d : List Char) (hd : d.contains '@' = false) :
    ∀ acc, pySplitChar.go '@' d acc = [String.mk (acc.reverse ++ d)] := by
  induction d with
  | nil => intro acc; simp [pySplitChar.go]
  | cons c rest ih =>
    intro acc
    simp only [List.contains_cons, Bool.or_eq_false_iff] at hd
    have hc : ¬c = '@' := by
      intro h
      rw [h] at hd
      simpa using hd.1
    simp only [pySplitChar.go, if_neg hc]
    rw [ih hd.2]
    simp

theorem pySplitChar_email (lpart dpart : String)
    (hl : lpart.data.contains '@' = false) (hd : dpart.data.contains '@' = false) :
    pySplitChar '@' (lpart ++ "@" ++ dpart) = [lpart, dpart] := by
  unfold pySplitChar
  rw [show (lpart ++ "@" ++ dpart).data = lpart.data ++ '@' :: dpart.data from by
    simp [String.data_append]]
  have hgo : ∀ (l : List Char), l.contains '@' = false → ∀ acc,
      pySplitChar.go '@' (l ++ '@' :: dpart.data) acc =
        String.mk (acc.reverse ++ l) :: pySplitChar.go '@' dpart.data [] := by
    intro l hlc
    induction l with
    | nil =>
      intro acc
      simp [pySplitChar.go]
    | cons c rest ih =>
      intro acc
      simp only [List.contains_cons, Bool.or_eq_false_iff] at hlc
      have hc : ¬c = '@' := by
        intro h
        rw [h] at hlc
        simpa using hlc.1
      simp only [List.cons_append, pySplitChar.go, if_neg hc]
      rw [show pySplitChar.go '@' (rest.append ('@' :: dpart.data)) (c :: acc) =
        pySplitChar.go '@' (rest ++ '@' :: dpart.data) (c :: acc) from rfl, ih hlc.2]
      simp
  rw [hgo lpart.data hl []]
  rw [pySplitChar_go_no_sep dpart.data hd []]
  simp

/-- The code's domain computation on a well-formed email. -/
theorem userDomainOf_email (lpart dpart : String)
    (hl : lpart.data.contains '@' = false) (hd : dpart.data.contains '@' = false) :
    userDomainOf (lpart ++ "@" ++ dpart) = pyLower dpart := by
  unfold userDomainOf
  have hat : pyStrContains (lpart ++ "@" ++ dpart) "@" = true := by
    rw [pyStrContains_at]
    rw [show (lpart ++ "@" ++ dpart).data = lpart.data ++ '@' :: dpart.data from by
      simp [String.data_append]]
    simp
  rw [if_pos hat, pySplitChar_email lpart dpart hl hd]
  rfl

/-- The claim's domain: the substring of the email after `@`, lowercased
(empty when there is no `@`). -/
def emailDomainSpec (email : String) : String :=
  if pyStrContains email "@" then
    pyLower (String.mk ((email.data.dropWhile (fun c => ¬c = '@')).tail))
  else ""

theorem String_mk_data : ∀ s : String, String.mk s.data = s
  | ⟨_⟩ => rfl

theorem dropWhile_until_at (d : List Char) :
    ∀ (l : List Char), l.contains '@' = false →
      (l ++ '@' :: d).dropWhile (fun c => ¬c = '@') = '@' :: d := by
  intro l
  induction l with
  | nil =>
    intro _
    simp [List.dropWhile_cons]
  | cons c rest ih =>
    intro hl
    simp only [List.contains_cons, Bool.or_eq_false_iff] at hl
    have hc : ¬c = '@' := by
      intro h
      rw [h] at hl
      simpa using hl.1
    simp only [List.cons_append, List.dropWhile_cons]
    rw [if_pos (by simpa using hc)]
    exact ih hl.2

/-- On a well-formed email the claim's domain and the code's agree. -/
theorem emailDomainSpec_email (lpart dpart : String)
    (hl : lpart.data.contains '@' = false) (_hd : dpart.data.contains '@' = false) :
    emailDomainSpec (lpart ++ "@" ++ dpart) = pyLower dpart := by
  unfold emailDomainSpec
  have hat : pyStrContains (lpart ++ "@" ++ dpart) "@" = true := by
    rw [pyStrContains_at]
    rw [show (lpart ++ "@" ++ dpart).data = lpart.data ++ '@' :: dpart.data from by
      simp [String.data_append]]
    simp
  rw [if_pos hat]
  rw [show (lpart ++ "@" ++ dpart).data = lpart.data ++ '@' :: dpart.data from by
    simp [String.data_append]]
  rw [dropWhile_until_at dpart.data lpart.data hl]
  rw [List.tail_cons, String_mk_data]

/-- The claim's access-level case analysis, written from the spec's words
(spec §4.2) for the refinement comparison with `has_document_access`:
public ⇒ allow; organization ⇒ allow iff the email domain (substring after
`@`, lowercased) is in the allow-list; restricted/private (or absent,
defaulting to private) ⇒ allow iff the email matches an entry of
`authorized_users` case-insensitively or the Group Membership Resolver
reports membership in some group of `authorized_groups`. -/
def specCheckAccess (settings : Settings) (env : DirectoryEnv) (access_level : Option JVal)
    (authorized_users_lower : List String) (authorized_groups : JVal) (email : String) : Bool :=
  if access_level = some (.str "public") then true
  else if access_level = some (.str "organization") then
    decide (emailDomainSpec email ∈ get_org_domains settings)
  else
    decide (pyLower email ∈ authorized_users_lower) ||
      check_user_group_membership settings env email authorized_groups

/-- C1: with dev mode off and the resolver available, the access decision
on a well-formed email (`local@domain`, parts free of `@`) and a metadata
record whose `access_level` is one of the four levels or absent, and whose
`authorized_users` field parses (to the lowercased entry list `ul`),
returns exactly the claim's case analysis. -/
theorem access_decision_follows_case_analysis
    (settings : Settings) (env : DirectoryEnv) (md : Metadata) (lpart dpart : String)
    (hl : lpart.data.contains '@' = false)
    (hd : dpart.data.contains '@' = false)
    (hal : metaGet md "access_level" = none ∨
      metaGet md "access_level" = some (.str "public") ∨
      metaGet md "access_level" = some (.str "organization") ∨
      metaGet md "access_level" = some (.str "restricted") ∨
      metaGet md "access_level" = some (.str "private"))
    (ul : List String)
    (husers : lowerStrElems (coerceListField (metaGetD md "authorized_users" (.arr []))) =
      .ok ul) :
    has_document_access settings env (some md) (lpart ++ "@" ++ dpart) true =
      .ok (specCheckAccess settings env (metaGet md "access_level") ul
        (coerceListField (metaGetD md "authorized_groups" (.arr [])))
        (lpart ++ "@" ++ dpart)) := by
  have hdata : (lpart ++ "@" ++ dpart).data = lpart.data ++ '@' :: dpart.data := by
    simp [String.data_append]
  have hne : ¬(lpart ++ "@" ++ dpart) = "" := by
    intro h
    have h2 := congrArg String.data h
    rw [hdata] at h2
    simp at h2
  simp only [has_document_access]
  rw [if_neg hne]
  rcases hal with halN | halP | halO | halR | halPr
  · -- access_level absent: default private
    by_cases hB : (["authorized_users", "authorized_groups", "access_level"].any
        (fun f => (metaGet md f).isSome)) = true
    · rw [if_neg (by simp [hB])]
      have hv : metaGetD md "access_level" (.str "private") = .str "private" := by
        simp [metaGetD, halN]
      rw [hv, if_neg (by decide), if_neg (by decide)]
      rw [husers, exceptOkBindM]
      by_cases hmem : pyLower (lpart ++ "@" ++ dpart) ∈ ul
      · rw [if_pos hmem]
        simp [specCheckAccess, halN, hmem, Pure.pure, Except.pure]
      · rw [if_neg hmem, exceptPureBindM]
        by_cases htr : pyTruthy (coerceListField (metaGetD md "authorized_groups" (.arr []))) = true
        · rw [if_pos ⟨htr, trivial⟩]
          simp [specCheckAccess, halN, hmem, Pure.pure, Except.pure]
        · rw [if_neg (fun hc => htr hc.1), exceptPureBindM]
          have hfalse := cugm_falsy settings env (lpart ++ "@" ++ dpart) _ (by simpa using htr)
          simp [specCheckAccess, halN, hmem, hfalse, Pure.pure, Except.pure]
    · rw [if_pos (by simpa using hB)]
      -- all three fields absent
      simp only [List.any_cons, List.any_nil, Bool.or_eq_true, not_or] at hB
      have hu : metaGet md "authorized_users" = none := by
        cases h : metaGet md "authorized_users"
        · rfl
        · exact absurd (by simp [h]) hB.1
      have hg : metaGet md "authorized_groups" = none := by
        cases h : metaGet md "authorized_groups"
        · rfl
        · exact absurd (by simp [h]) hB.2.1
      have hulnil : ul = [] := by
        rw [show metaGetD md "authorized_users" (.arr []) = .arr [] from by
          simp [metaGetD, hu]] at husers
        rw [show coerceListField (.arr []) = .arr [] from rfl] at husers
        rw [show lowerStrElems (.arr []) = .ok [] from rfl] at husers
        exact (Except.ok.injEq _ _ ▸ husers).symm
      have hgval : coerceListField (metaGetD md "authorized_groups" (.arr [])) = .arr [] := by
        simp [metaGetD, hg]
        rfl
      have hfalse := cugm_falsy settings env (lpart ++ "@" ++ dpart)
        (coerceListField (metaGetD md "authorized_groups" (.arr []))) (by rw [hgval]; rfl)
      simp [specCheckAccess, halN, hulnil, hfalse]
  · -- public
    rw [if_neg (by simp [List.any_cons, halP])]
    have hv : metaGetD md "access_level" (.str "private") = .str "public" := by
      simp [metaGetD, halP]
    rw [hv, if_pos rfl]
    simp [specCheckAccess, halP]
  · -- organization
    rw [if_neg (by simp [List.any_cons, halO])]
    have hv : metaGetD md "access_level" (.str "private") = .str "organization" := by
      simp [metaGetD, halO]
    rw [hv, if_neg (by decide), if_pos rfl]
    rw [userDomainOf_email lpart dpart hl hd]
    rw [halO]
    simp [specCheckAccess, emailDomainSpec_email lpart dpart hl hd]
  · -- restricted
    rw [if_neg (by simp [List.any_cons, halR])]
    have hv : metaGetD md "access_level" (.str "private") = .str "restricted" := by
      simp [metaGetD, halR]
    rw [hv, if_neg (by decide), if_neg (by decide)]
    rw [husers, exceptOkBindM]
    by_cases hmem : pyLower (lpart ++ "@" ++ dpart) ∈ ul
    · rw [if_pos hmem]
      simp [specCheckAccess, halR, hmem, Pure.pure, Except.pure]
    · rw [if_neg hmem, exceptPureBindM]
      by_cases htr : pyTruthy (coerceListField (metaGetD md "authorized_groups" (.arr []))) = true
      · rw [if_pos ⟨htr, trivial⟩]
        simp [specCheckAccess, halR, hmem, Pure.pure, Except.pure]
      · rw [if_neg (fun hc => htr hc.1), exceptPureBindM]
        have hfalse := cugm_falsy settings env (lpart ++ "@" ++ dpart) _ (by simpa using htr)
        simp [specCheckAccess, halR, hmem, hfalse, Pure.pure, Except.pure]
  · -- private
    rw [if_neg (by simp [List.any_cons, halPr])]
    have hv : metaGetD md "access_level" (.str "private") = .str "private" := by
      simp [metaGetD, halPr]
    rw [hv, if_neg (by decide), if_neg (by decide)]
    rw [husers, exceptOkBindM]
    by_cases hmem : pyLower (lpart ++ "@" ++ dpart) ∈ ul
    · rw [if_pos hmem]
      simp [specCheckAccess, halPr, hmem, Pure.pure, Except.pure]
    · rw [if_neg hmem, exceptPureBindM]
      by_cases htr : pyTruthy (coerceListField (metaGetD md "authorized_groups" (.arr []))) = true
      · rw [if_pos ⟨htr, trivial⟩]
        simp [specCheckAccess, halPr, hmem, Pure.pure, Except.pure]
      · rw [if_neg (fun hc => htr hc.1), exceptPureBindM]
        have hfalse := cugm_falsy settings env (lpart ++ "@" ++ dpart) _ (by simpa using htr)
        simp [specCheckAccess, halPr, hmem, hfalse, Pure.pure, Except.pure]

/-- Witness for C1 on an organization-level document and a well-formed
email. -/
theorem access_decision_follows_case_analysis_witness :
    has_document_access ⟨"acme.com", false⟩ ⟨.error "t", .error "r"⟩
      (some [("access_level", JVal.str "organization")]) ("user" ++ "@" ++ "Acme.COM") true =
      .ok (specCheckAccess ⟨"acme.com", false⟩ ⟨.error "t", .error "r"⟩
        (metaGet [("access_level", JVal.str "organization")] "access_level") []
        (coerceListField (metaGetD [("access_level", JVal.str "organization")]
          "authorized_groups" (.arr []))) ("user" ++ "@" ++ "Acme.COM")) :=
  access_decision_follows_case_analysis ⟨"acme.com", false⟩ ⟨.error "t", .error "r"⟩
    [("access_level", JVal.str "organization")] "user" "Acme.COM" (by decide) (by decide)
    (Or.inr (Or.inr (Or.inl rfl))) [] rfl

/-! ## C8: legacy string-encoded lists versus native lists -/

/-- The body of the legacy single-quoted encoding: `'e1', 'e2'` as
characters. -/
def encInner : List String → List Char
  | [] => []
  | [x] => squoteChar :: x.data ++ [squoteChar]
  | x :: xs => squoteChar :: x.data ++ [squoteChar] ++ (',' :: ' ' :: encInner xs)

/-- The legacy single-quoted string encoding of a list of strings, e.g.
`['a@b.com', 'c@d.com']` (spec §4.2's legacy storage format). -/
def legacyEncode (L : List String) : String :=
  String.mk ('[' :: encInner L ++ [']'])

/-- Characters that survive the quote normalization and JSON string
grammar unscathed: no quotes, no backslash, no control characters. -/
def plainChar (c : Char) : Bool :=
  !(c = squoteChar) && !(c = dquoteChar) && !(c = Char.ofNat 92) && decide (32 ≤ c.toNat)

/-- The quote-normalized encoding body: `"e1", "e2"` as characters. -/
def normInner : List String → List Char
  | [] => []
  | [x] => dquoteChar :: x.data ++ [dquoteChar]
  | x :: xs => dquoteChar :: x.data ++ [dquoteChar] ++ (',' :: ' ' :: normInner xs)

/-- One character of the quote normalization. -/
def normChar (c : Char) : Char := if c = squoteChar then dquoteChar else c

theorem pyNormalizeQuotes_mk (cs : List Char) :
    pyNormalizeQuotes (String.mk cs) = String.mk (cs.map normChar) := rfl

theorem normChar_plain (c : Char) (hc : plainChar c = true) : normChar c = c := by
  have h1 : ¬c = squoteChar := by
    intro h
    subst h
    simp [plainChar] at hc
  simp [normChar, h1]

theorem map_normChar_plain (x : String) (hx : x.data.all plainChar = true) :
    x.data.map normChar = x.data := by
  have h := List.all_eq_true.mp hx
  calc x.data.map normChar = x.data.map id :=
        List.map_congr_left (fun c hc => normChar_plain c (h c hc))
    _ = x.data := List.map_id _

theorem map_normChar_encInner (L : List String)
    (hL : ∀ x ∈ L, x.data.all plainChar = true) :
    (encInner L).map normChar = normInner L := by
  induction L with
  | nil => rfl
  | cons x xs ih =>
    cases xs with
    | nil =>
      simp only [encInner, normInner, List.map_cons, List.map_append]
      rw [map_normChar_plain x (hL x (List.mem_cons_self _ _))]
      rfl
    | cons y ys =>
      simp only [encInner, normInner, List.map_cons, List.map_append]
      rw [map_normChar_plain x (hL x (List.mem_cons_self _ _))]
      rw [ih (fun z hz => hL z (List.mem_cons_of_mem _ hz))]
      rfl

theorem jSkipWs_pre (pre : List Char) (hpre : ∀ c ∈ pre, jIsWs c = true) :
    ∀ cs, jSkipWs (pre ++ cs) = jSkipWs cs := by
  induction pre with
  | nil => intro cs; rfl
  | cons c rest ih =>
    intro cs
    simp only [List.cons_append, jSkipWs, if_pos (hpre c (List.mem_cons_self _ _))]
    exact ih (fun d hd => hpre d (List.mem_cons_of_mem _ hd)) cs

theorem jSkipWs_not_ws (c : Char) (cs : List Char) (hc : jIsWs c = false) :
    jSkipWs (c :: cs) = c :: cs := by
  simp [jSkipWs, hc]

/-- Parsing the body of a plain JSON string with enough fuel: consume up
to the closing quote. -/
theorem jParseStrF_plain : ∀ (x : List Char), x.all plainChar = true →
    ∀ (f : Nat), x.length < f → ∀ (rest : List Char),
      jParseStrF f (x ++ dquoteChar :: rest) = some (x, rest) := by
  intro x
  induction x with
  | nil =>
    intro _ f hf rest
    obtain ⟨f1, rfl⟩ : ∃ f1, f = f1 + 1 := ⟨f - 1, by omega⟩
    simp only [List.nil_append, jParseStrF]
    simp
  | cons c cs ih =>
    intro hx f hf rest
    obtain ⟨f1, rfl⟩ : ∃ f1, f = f1 + 1 := ⟨f - 1, by omega⟩
    have hc := List.all_eq_true.mp hx c (List.mem_cons_self _ _)
    have h2 : ¬c = dquoteChar := by
      intro h
      subst h
      simp [plainChar] at hc
    have h3 : ¬c = Char.ofNat 92 := by
      intro h
      subst h
      simp [plainChar] at hc
    have h4 : ¬c.toNat < 32 := by
      simp only [plainChar, Bool.and_eq_true, decide_eq_true_eq] at hc
      omega
    rw [List.cons_append]
    simp only [jParseStrF]
    rw [if_neg h2, if_neg h3, if_neg h4]
    rw [ih (List.all_eq_true.mpr
        (fun d hd => List.all_eq_true.mp hx d (List.mem_cons_of_mem _ hd)))
      f1 (by simp only [List.length_cons] at hf; omega) rest]
    rfl

/-- Parsing the body of a plain JSON string: consume up to the closing
quote. -/
theorem jParseStr_plain (x : List Char) (hx : x.all plainChar = true) (rest : List Char) :
    jParseStr (x ++ dquoteChar :: rest) = some (x, rest) := by
  unfold jParseStr
  exact jParseStrF_plain x hx _
    (by simp only [List.length_append, List.length_cons]; omega) rest

/-- Parsing a plain double-quoted string as a JSON value, tolerating
leading whitespace. -/
theorem jParseVal_str_ws (pre : List Char) (hpre : ∀ c ∈ pre, jIsWs c = true)
    (x : String) (hx : x.data.all plainChar = true) (rest : List Char) (f : Nat) :
    jParseVal (f + 1) (pre ++ dquoteChar :: x.data ++ dquoteChar :: rest) =
      some (.str x, rest) := by
  have hws : jSkipWs (pre ++ dquoteChar :: x.data ++ dquoteChar :: rest) =
      dquoteChar :: (x.data ++ dquoteChar :: rest) := by
    rw [show pre ++ dquoteChar :: x.data ++ dquoteChar :: rest =
      pre ++ (dquoteChar :: (x.data ++ dquoteChar :: rest)) from by simp]
    rw [jSkipWs_pre pre hpre, jSkipWs_not_ws _ _ (by decide)]
  simp only [jParseVal, hws, if_pos rfl]
  rw [jParseStr_plain x.data hx rest]
  simp [String_mk_data]

/-- One-step unfolding of the item parser at positive fuel, leaving the
recursive occurrence folded. -/
theorem jParseItems_succ (fuel : Nat) (input : List Char) :
    jParseItems (fuel + 1) input =
      match jParseVal fuel input with
      | none => none
      | some (v, rest) =>
        match jSkipWs rest with
        | c :: cs =>
          if c = ',' then
            match jParseItems fuel cs with
            | some (items, rest2) => some (v :: items, rest2)
            | none => none
          else if c = ']' then some ([v], cs)
          else none
        | [] => none := rfl

/-- Parsing the items of the normalized encoding of a non-empty plain
list. -/
theorem jParseItems_enc :
    ∀ (L : List String), L ≠ [] → (∀ x ∈ L, x.data.all plainChar = true) →
      ∀ (f : Nat), L.length + 1 ≤ f → ∀ (pre : List Char), (∀ c ∈ pre, jIsWs c = true) →
        ∀ (rest : List Char),
          jParseItems f (pre ++ normInner L ++ ']' :: rest) = some (L.map .str, rest) := by
  intro L
  induction L with
  | nil => intro h; exact absurd rfl h
  | cons x xs ih =>
    intro _ hplain f hf pre hpre rest
    simp only [List.length_cons] at hf
    cases xs with
    | nil =>
      obtain ⟨f1, rfl⟩ : ∃ f1, f = f1 + 2 := ⟨f - 2, by
        simp only [List.length_nil] at hf
        omega⟩
      simp only [jParseItems]
      rw [show pre ++ normInner [x] ++ ']' :: rest =
        pre ++ dquoteChar :: x.data ++ dquoteChar :: (']' :: rest) from by
          simp [normInner]]
      rw [jParseVal_str_ws pre hpre x (hplain x (List.mem_cons_self _ _)) (']' :: rest) f1]
      dsimp only
      rw [jSkipWs_not_ws ']' rest (by decide)]
      dsimp only
      rw [if_neg (show ¬(']' = ',') from by decide), if_pos rfl]
      rfl
    | cons y ys =>
      obtain ⟨f2, rfl⟩ : ∃ f2, f = f2 + 2 := ⟨f - 2, by
        simp only [List.length_cons] at hf
        omega⟩
      rw [jParseItems_succ (f2 + 1)]
      have hsplit : pre ++ normInner (x :: y :: ys) ++ ']' :: rest =
          pre ++ dquoteChar :: x.data ++ dquoteChar ::
            (',' :: ' ' :: (normInner (y :: ys) ++ ']' :: rest)) := by
        simp [normInner]
      rw [hsplit]
      rw [jParseVal_str_ws pre hpre x (hplain x (List.mem_cons_self _ _)) _ f2]
      dsimp only
      rw [jSkipWs_not_ws ',' (' ' :: (normInner (y :: ys) ++ ']' :: rest)) (by decide)]
      dsimp only
      rw [if_pos rfl]
      rw [show (' ' :: (normInner (y :: ys) ++ ']' :: rest)) =
        [' '] ++ normInner (y :: ys) ++ ']' :: rest from by simp]
      rw [ih (by simp) (fun z hz => hplain z (List.mem_cons_of_mem _ hz)) (f2 + 1)
        (by simp only [List.length_cons] at hf ⊢; omega)
        [' '] (by intro c hc; simp at hc; subst hc; decide) rest]
      simp

/-- The length of the normalized body dominates the list length. -/
theorem normInner_length_ge : ∀ (L : List String), L.length ≤ (normInner L).length := by
  intro L
  induction L with
  | nil => simp [normInner]
  | cons x xs ih =>
    cases xs with
    | nil => simp [normInner]
    | cons y ys =>
      simp only [normInner, List.length_cons, List.length_append] at ih ⊢
      omega

/-- `json.loads` on the quote-normalized legacy encoding of a plain list
recovers the native list. -/
theorem jsonLoads_legacy (L : List String) (hplain : ∀ x ∈ L, x.data.all plainChar = true) :
    jsonLoads (pyNormalizeQuotes (legacyEncode L)) = some (.arr (L.map .str)) := by
  have hnorm : pyNormalizeQuotes (legacyEncode L) = String.mk ('[' :: normInner L ++ [']']) := by
    rw [legacyEncode, pyNormalizeQuotes_mk]
    simp only [List.map_cons, List.map_append]
    rw [map_normChar_encInner L hplain]
    rfl
  rw [hnorm]
  unfold jsonLoads
  rw [show (String.mk ('[' :: normInner L ++ [']'])).data = '[' :: normInner L ++ [']'] from rfl]
  have hlen : ('[' :: normInner L ++ [']']).length = (normInner L).length + 2 := by
    simp
  rw [hlen]
  have hval : jParseVal ((normInner L).length + 2 + 1) ('[' :: normInner L ++ [']']) =
      some (.arr (L.map .str), []) := by
    simp only [jParseVal]
    rw [show jSkipWs ('[' :: normInner L ++ [']']) = '[' :: (normInner L ++ [']']) from by
      rw [List.cons_append]
      exact jSkipWs_not_ws _ _ (by decide)]
    dsimp only
    rw [if_neg (show ¬('[' = dquoteChar) from by decide), if_pos rfl]
    cases hL : L with
    | nil =>
      decide
    | cons x xs =>
      simp only [jParseArr]
      have hhead : ∃ tail, normInner (x :: xs) ++ [']'] = dquoteChar :: tail := by
        cases xs <;> simp [normInner]
      obtain ⟨tail, htail⟩ := hhead
      rw [htail]
      rw [show jSkipWs (dquoteChar :: tail) = dquoteChar :: tail from
        jSkipWs_not_ws _ _ (by decide)]
      dsimp only
      rw [if_neg (show ¬(dquoteChar = ']') from by decide)]
      rw [← htail]
      rw [show normInner (x :: xs) ++ [']'] = [] ++ normInner (x :: xs) ++ ']' :: [] from by
        simp]
      rw [jParseItems_enc (x :: xs) (by simp)
        (by rw [hL] at hplain; exact hplain)
        ((normInner (x :: xs)).length + 1)
        (by
          have := normInner_length_ge (x :: xs)
          omega)
        [] (by intro c hc; simp at hc) []]
  rw [hval]
  rfl

/-- The string-or-list coercion recovers the native list from the legacy
encoding of a list of plain strings (agent.py:211-215). -/
theorem coerceListField_legacy (L : List String)
    (hplain : ∀ x ∈ L, x.data.all plainChar = true) :
    coerceListField (.str (legacyEncode L)) = .arr (L.map .str) := by
  simp [coerceListField, jsonLoads_legacy L hplain]

/-- A metadata record with an optional `access_level` entry and given
`authorized_users` / `authorized_groups` values. -/
def mdWith (al : Option JVal) (u g : JVal) : Metadata :=
  (match al with | some v => [("access_level", v)] | none => []) ++
    [("authorized_users", u), ("authorized_groups", g)]

theorem mdWith_access_level (al : Option JVal) (u g : JVal) :
    metaGet (mdWith al u g) "access_level" = al := by
  cases al <;> rfl

theorem mdWith_users (al : Option JVal) (u g : JVal) :
    metaGet (mdWith al u g) "authorized_users" = some u := by
  cases al <;> rfl

theorem mdWith_groups (al : Option JVal) (u g : JVal) :
    metaGet (mdWith al u g) "authorized_groups" = some g := by
  cases al <;> rfl

/-- The access decision only sees the two list fields through the
string-or-list coercion: values with equal coercions decide alike. -/
theorem hda_mdWith_congr (settings : Settings) (env : DirectoryEnv)
    (al : Option JVal) (u1 g1 u2 g2 : JVal) (email : String) (sp : Bool)
    (hu : coerceListField u1 = coerceListField u2)
    (hg : coerceListField g1 = coerceListField g2) :
    has_document_access settings env (some (mdWith al u1 g1)) email sp =
      has_document_access settings env (some (mdWith al u2 g2)) email sp := by
  simp only [has_document_access, metaGetD, mdWith_access_level, mdWith_users,
    mdWith_groups, Option.isSome_some, Option.getD_some, List.any_cons,
    List.any_nil]
  rw [hu, hg]

/-- C8 (amended to quote-free, backslash-free, control-free element
strings — an element containing a single quote breaks the JSON parse after
quote normalization and falls back to the whole-string singleton): the
access decision on metadata whose authorized_users and authorized_groups
fields carry the legacy single-quoted string encoding of lists U and G
equals the decision on metadata carrying the native lists, for every
access_level entry (present or absent), user email and service flag; and a
string that fails to parse as JSON after quote normalization is treated as
a single-element list. -/
theorem legacy_encoding_matches_native (settings : Settings) (env : DirectoryEnv)
    (U G : List String) (hU : ∀ x ∈ U, x.data.all plainChar = true)
    (hG : ∀ x ∈ G, x.data.all plainChar = true) (al : Option JVal)
    (email : String) (sp : Bool) :
    (has_document_access settings env
        (some (mdWith al (.str (legacyEncode U)) (.str (legacyEncode G)))) email sp =
      has_document_access settings env
        (some (mdWith al (.arr (U.map .str)) (.arr (G.map .str)))) email sp) ∧
    (∀ s : String, jsonLoads (pyNormalizeQuotes s) = none →
      coerceListField (.str s) = .arr [.str s]) := by
  constructor
  · exact hda_mdWith_congr settings env al _ _ _ _ email sp
      (by rw [coerceListField_legacy U hU]; rfl)
      (by rw [coerceListField_legacy G hG]; rfl)
  · intro s hs
    simp [coerceListField, hs]

/-- Witness for C8 on a one-element user list and a restricted document. -/
theorem legacy_encoding_matches_native_witness :
    (∀ x ∈ ["a@b.com"], x.data.all plainChar = true) ∧
    ((has_document_access ⟨"", false⟩ ⟨.error "t", .error "r"⟩
        (some (mdWith (some (.str "restricted"))
          (.str (legacyEncode ["a@b.com"])) (.str (legacyEncode [])))) "a@b.com" true =
      has_document_access ⟨"", false⟩ ⟨.error "t", .error "r"⟩
        (some (mdWith (some (.str "restricted"))
          (.arr (["a@b.com"].map .str)) (.arr (([] : List String).map .str)))) "a@b.com" true) ∧
    (∀ s : String, jsonLoads (pyNormalizeQuotes s) = none →
      coerceListField (.str s) = .arr [.str s])) :=
  ⟨by decide, legacy_encoding_matches_native ⟨"", false⟩ ⟨.error "t", .error "r"⟩
    ["a@b.com"] [] (by decide) (by decide) (some (.str "restricted")) "a@b.com" true⟩

/-- An authorized email containing a single quote. -/
def apostEmail : String := "a" ++ String.singleton squoteChar ++ "b@x.com"

/-- Counterexample to C8 as stated: for an authorized email containing a
single quote, the quote normalization corrupts the JSON, the parse fails,
the fallback treats the whole encoded string as one element, and the user
is denied — while the native list grants access. -/
theorem legacy_encoding_differs_on_quote :
    has_document_access ⟨"", false⟩ ⟨.error "t", .error "r"⟩
      (some (mdWith (some (.str "restricted"))
        (.str (legacyEncode [apostEmail])) (.str (legacyEncode []))))
      apostEmail true = .ok false ∧
    has_document_access ⟨"", false⟩ ⟨.error "t", .error "r"⟩
      (some (mdWith (some (.str "restricted"))
        (.arr [.str apostEmail]) (.arr [])))
      apostEmail true = .ok true := by
  constructor <;> rfl

end Infinibot
